import Mathlib

/-!
# Tier resolver of the Little Alchemy 2 scraper (`WebScrapping/main.go`)

A shallow embedding of the in-memory part of `main`: the construction of the
`elements` map from the table rows (lines 268-347) and the tier calculation
(lines 357-418), followed by theorems about them.

Conventions of the embedding.

* `map[string]*Element` is an association list `List (String × Element)`.  Every
  key owns its own record (the program never stores one pointer under two keys),
  so pointer updates are modelled by replacing the record stored under the key.
* `for name, elem := range elements` visits every key once, in an order Go leaves
  unspecified and re-draws for every loop.  The order of the `k`-th run of the
  inner loop of the tier calculation is a parameter `orders k : List String`.
* `Tier` is a Go `int`; it is embedded as `Int`.  The only arithmetic on it is
  `maxTier + 1`.  In the states the loop reaches from a map without visited
  records the tiers are bounded by the number of entries of the map
  (`tier_le_length`), so the 64-bit range is never left there; a theorem about
  an arbitrary state assumes the visited tiers below `maxInt64` and shows that
  the sum is the value Go computes (`wrapInt64`).
* Everything that talks to the network, the file system or the HTML document is
  outside the embedding: a table row arrives as the values the row callback has
  extracted from it (`Row`).
-/

namespace WebScrapping

/-- The Go struct `ElementRecipe`. -/
structure ElementRecipe where
  Ingredients : List String
  deriving DecidableEq

/-- The Go struct `Element`. -/
structure Element where
  Name : String
  Tier : Int
  ImageURL : String
  LocalImage : String
  Recipes : List ElementRecipe
  visited : Bool
  deriving DecidableEq

/-- The Go type `map[string]*Element`. -/
abbrev Elements := List (String × Element)

/-- Map lookup, `elem, exists := elements[name]`. -/
def Elements.get? : Elements → String → Option Element
  | [], _ => none
  | (k, v) :: rest, name => if k = name then some v else Elements.get? rest name

/-- Map assignment, `elements[name] = elem`: overwrite the entry of an existing
key, add an entry otherwise. -/
def Elements.set : Elements → String → Element → Elements
  | [], name, elem => [(name, elem)]
  | (k, v) :: rest, name, elem =>
    if k = name then (k, elem) :: rest else (k, v) :: Elements.set rest name elem

/-- The keys of the map. -/
def Elements.keys (elements : Elements) : List String :=
  elements.map Prod.fst

/-! ## Construction of the map (lines 177-353) -/

/-- What the row callback has extracted from one table row before it touches
the map: the number of cells, the result name, the cleaned image URL, the local
image path left after the download attempt, and, for every list item of the
second cell, the ingredient names found in it. -/
structure Row where
  cells : Nat
  resultName : String
  imageURL : String
  localImagePath : String
  recipes : List (List String)
  deriving DecidableEq

/-- The placeholder record of lines 340-344. -/
def placeholder (ingredient : String) : Element :=
  ⟨ingredient, 1, "", "", [], false⟩

/-- Lines 338-346, body of the loop: an ingredient that is not yet a key gets a
placeholder record. -/
def addPlaceholder (elements : Elements) (ingredient : String) : Elements :=
  match elements.get? ingredient with
  | some _ => elements
  | none => elements.set ingredient (placeholder ingredient)

/-- Lines 327-347: an ingredient list with at least two names is appended to the
recipes of `resultName`, then its ingredients get their placeholders.  The key
`resultName` exists at this point (lines 268-279); on a missing key the Go code
would fault, the embedding returns the map. -/
def addRecipe (resultName : String) (elements : Elements) (ingredients : List String) :
    Elements :=
  if ingredients.length ≥ 2 then
    match elements.get? resultName with
    | none => elements
    | some elem =>
      ingredients.foldl addPlaceholder
        (elements.set resultName
          { elem with Recipes := elem.Recipes ++ [⟨ingredients⟩] })
  else elements

/-- Lines 268-279: create the record of the row's result, or complete the image
fields of an existing record that has none. -/
def ensureElement (elements : Elements) (row : Row) : Elements :=
  match elements.get? row.resultName with
  | none =>
    elements.set row.resultName
      ⟨row.resultName, 1, row.imageURL, row.localImagePath, [], false⟩
  | some elem =>
    if row.imageURL ≠ "" ∧ elem.ImageURL = "" then
      elements.set row.resultName
        { elem with ImageURL := row.imageURL, LocalImage := row.localImagePath }
    else elements

/-- Lines 177-353: the row callback.  Rows with fewer than two cells (line 184)
or without a result name (line 226) are skipped. -/
def processRow (elements : Elements) (row : Row) : Elements :=
  if row.cells < 2 then elements
  else if row.resultName = "" then elements
  else row.recipes.foldl (addRecipe row.resultName) (ensureElement elements row)

/-- The map after all rows, starting from the empty map of line 172. -/
def buildElements (rows : List Row) : Elements :=
  rows.foldl processRow []

/-- Well-formedness of the map: every stored recipe has at least two
ingredients, and every ingredient of every stored recipe is a key. -/
def WellFormed (elements : Elements) : Prop :=
  ∀ n e, elements.get? n = some e →
    ∀ r ∈ e.Recipes, 2 ≤ r.Ingredients.length ∧ ∀ i ∈ r.Ingredients, i ∈ elements.keys

/-- The largest value of a Go `int` on a 64-bit platform. -/
def maxInt64 : Int := 9223372036854775807

/-- Go's `int` arithmetic on a 64-bit platform: the mathematical result of an
operation, reduced into the signed 64-bit range. -/
def wrapInt64 (x : Int) : Int :=
  (x + 9223372036854775808) % 18446744073709551616 - 9223372036854775808

/-! ## Tier calculation (lines 357-418) -/

/-- Lines 357-363: every element without recipes gets tier 1 and is marked
visited.  Each entry is treated on its own, so the order of the `range` is
immaterial. -/
def initBase (elements : Elements) : Elements :=
  elements.map fun p =>
    if p.2.Recipes.length = 0 then (p.1, { p.2 with Tier := 1, visited := true }) else p

/-- Lines 383-396: the loop over the ingredients of one recipe, started with the
current value of `recipeTier`.  Returns `(allIngredientsVisited, recipeTier)`;
the `break` leaves the loop at the first ingredient that is missing or not yet
visited. -/
def scanIngredients (elements : Elements) : List String → Int → Bool × Int
  | [], recipeTier => (true, recipeTier)
  | ingredient :: rest, recipeTier =>
    match elements.get? ingredient with
    | none => (false, recipeTier)
    | some ingredientElem =>
      if !ingredientElem.visited then (false, recipeTier)
      else scanIngredients elements rest
        (if ingredientElem.Tier > recipeTier then ingredientElem.Tier else recipeTier)

/-- Lines 379-402: the loop over the recipes of one element, started with the
current values of `canCalculate` and `maxTier`.  Returns
`(canCalculate, maxTier)`. -/
def scanRecipes (elements : Elements) : List ElementRecipe → Bool → Int → Bool × Int
  | [], canCalculate, maxTier => (canCalculate, maxTier)
  | recipe :: rest, canCalculate, maxTier =>
    let r := scanIngredients elements recipe.Ingredients 0
    if r.1 && r.2 > maxTier then scanRecipes elements rest true r.2
    else scanRecipes elements rest canCalculate maxTier

/-- Lines 374-410: the body of the inner loop for the key `name`, on the state
`(elements, changed)`.  The sum `maxTier + 1` of line 405 is taken in `Int`; it
is the value Go stores, `wrapInt64 (maxTier + 1)`, as long as `maxTier` is below
`maxInt64`, which is the case in every state the loop reaches from a map as the
scraper builds it (`tier_le_length`).  The theorem on this function alone,
`visitElement_step`, assumes that bound. -/
def visitElement (st : Elements × Bool) (name : String) : Elements × Bool :=
  match st.1.get? name with
  | none => st
  | some elem =>
    if elem.visited then st
    else
      let r := scanRecipes st.1 elem.Recipes false 0
      if r.1 then
        (st.1.set name { elem with Tier := r.2 + 1, visited := true }, true)
      else st

/-- Lines 370-410: one iteration of the outer loop: `changed = false`, then the
inner loop over the keys in the order `order`. -/
def tierPass (order : List String) (elements : Elements) : Elements × Bool :=
  order.foldl visitElement (elements, false)

/-- The constant `maxIterations := 100` of line 366. -/
def maxIterations : Nat := 100

/-- The result of the outer loop: the map, the final value of `iteration` and
the final value of `changed`. -/
structure LoopResult where
  elements : Elements
  iteration : Nat
  changed : Bool

/-- Lines 369-411: `for changed && iteration < maxIterations`.  `remaining` is
`maxIterations - iteration`; the function is entered when `changed` is true.
The pass that brings `iteration` to `k` uses the order `orders k`. -/
def tierLoop (orders : Nat → List String) : Nat → Nat → Elements → LoopResult
  | 0, iteration, elements => ⟨elements, iteration, true⟩
  | remaining + 1, iteration, elements =>
    let r := tierPass (orders (iteration + 1)) elements
    if r.2 then tierLoop orders remaining (iteration + 1) r.1
    else ⟨r.1, iteration + 1, false⟩

/-- Lines 413-418: every element that is still not visited gets tier 1.  The
`visited` flag is left as it is. -/
def fallback (elements : Elements) : Elements :=
  elements.map fun p =>
    if !p.2.visited then (p.1, { p.2 with Tier := 1 }) else p

/-- Lines 365-411 from the state the base initialisation leaves. -/
def runLoop (orders : Nat → List String) (elements : Elements) : LoopResult :=
  tierLoop orders maxIterations 0 (initBase elements)

/-- Lines 357-418: the whole tier calculation. -/
def resolveTiers (orders : Nat → List String) (elements : Elements) : Elements :=
  fallback (runLoop orders elements).elements

/-- The tier stored under a key, if the key exists. -/
def tierOf (elements : Elements) (name : String) : Option Int :=
  (elements.get? name).map Element.Tier

/-- The `visited` flag stored under a key, if the key exists. -/
def visitedOf (elements : Elements) (name : String) : Option Bool :=
  (elements.get? name).map Element.visited

/-- A recipe-less element as the scraper creates it (tier 1, not visited). -/
def baseElem (name : String) : Element :=
  ⟨name, 1, "", "", [], false⟩

/-- An element with recipes as the scraper creates it (tier 1, not visited). -/
def mkElem (name : String) (recipes : List (List String)) : Element :=
  ⟨name, 1, "", "", recipes.map ElementRecipe.mk, false⟩

/-- Test graph: `A`, `B` base, `C = A + B`, `Target = A + B | C + A`. -/
def diamond : Elements :=
  [("A", baseElem "A"), ("B", baseElem "B"),
   ("C", mkElem "C" [["A", "B"]]),
   ("Target", mkElem "Target" [["A", "B"], ["C", "A"]])]

/-- The tier stored under a key, `0` for a name that is not a key. -/
def tierAt (elements : Elements) (name : String) : Int :=
  match elements.get? name with
  | some e => e.Tier
  | none => 0

/-- Every ingredient of the recipe is a key of the map and is marked visited:
the condition under which the ingredient loop ends with
`allIngredientsVisited` still true. -/
def Resolvable (elements : Elements) (recipe : ElementRecipe) : Prop :=
  ∀ i ∈ recipe.Ingredients, ∃ e, elements.get? i = some e ∧ e.visited = true

/-- The record rewrite of the base initialisation. -/
def initRecord (e : Element) : Element :=
  if e.Recipes.length = 0 then { e with Tier := 1, visited := true } else e

/-- The record rewrite of the fallback pass. -/
def fallbackRecord (e : Element) : Element :=
  if !e.visited then { e with Tier := 1 } else e

/-- The value `recipeTier` the ingredient loop computes for a recipe. -/
def recipeTierOf (m : Elements) (r : ElementRecipe) : Int :=
  (scanIngredients m r.Ingredients 0).2

/-- The input of the tier calculation: no record is marked visited yet (the
scraper never sets the field while it builds the map). -/
def Fresh (elements : Elements) : Prop :=
  ∀ n e, elements.get? n = some e → e.visited = false

/-- What the tier loop may do to one record: leave it, or turn a record that has
recipes and is not visited into the visited record with some tier `t ≥ 2`. -/
def RecStep (e e' : Element) : Prop :=
  e' = e ∨ (e.visited = false ∧ e.Recipes ≠ [] ∧
    ∃ t : Int, 2 ≤ t ∧ e' = { e with Tier := t, visited := true })

/-- The map `m'` comes from `m` by such record changes: same keys, and the
records related by `RecStep`. -/
def Evolves (m m' : Elements) : Prop :=
  ∀ k, (m.get? k = none ∧ m'.get? k = none) ∨
    ∃ e e', m.get? k = some e ∧ m'.get? k = some e' ∧ RecStep e e'

/-- Forward propagation from the base elements: a key without recipes is
derivable, and so is a key one of whose recipes has at least one ingredient and
only derivable ingredients. -/
inductive Derivable (g : Elements) : String → Prop
  | base (n : String) (e : Element) :
      g.get? n = some e → e.Recipes = [] → Derivable g n
  | step (n : String) (e : Element) (r : ElementRecipe) :
      g.get? n = some e → r ∈ e.Recipes → r.Ingredients ≠ [] →
      (∀ i ∈ r.Ingredients, Derivable g i) → Derivable g n

/-- Test graph: `X` base, `A = B + X`, `B = A + X` (a cycle). -/
def cycleGraph : Elements :=
  [("A", mkElem "A" [["B", "X"]]), ("B", mkElem "B" [["A", "X"]]), ("X", baseElem "X")]

/-- Every run of the inner loop visits exactly the keys of the map: `orders k`
is a rearrangement of the key list. -/
def ValidOrders (elements : Elements) (orders : Nat → List String) : Prop :=
  ∀ k, (orders k).Perm elements.keys

/-- Test graph: `A`, `B` base, `D = A + B`, `C = D + A`,
`Target = A + B | C + C`. -/
def chainGraph : Elements :=
  [("A", baseElem "A"), ("B", baseElem "B"),
   ("D", mkElem "D" [["A", "B"]]),
   ("C", mkElem "C" [["D", "A"]]),
   ("Target", mkElem "Target" [["A", "B"], ["C", "C"]])]

/-- The depth of the keys of `diamond`. -/
def diamondDepth (n : String) : Nat :=
  if n = "Target" then 2 else if n = "C" then 1 else 0

/-- Test graph: `Water`, `Fire` base, `Steam = Water + Fire`,
`Cloud = Steam + Water`. -/
def steamGraph : Elements :=
  [("Water", baseElem "Water"), ("Fire", baseElem "Fire"),
   ("Steam", mkElem "Steam" [["Water", "Fire"]]),
   ("Cloud", mkElem "Cloud" [["Steam", "Water"]])]

/-- The number of entries whose record is marked visited. -/
def visitedCount (elements : Elements) : Nat :=
  elements.countP fun p => p.2.visited

/-- The rows of a table with the single entry `Steam = Water + Fire`, followed
by a list item with one name only. -/
def steamRows : List Row :=
  [⟨2, "Steam", "https://example.org/steam.png", "images/Steam_0a1b2c3d.png",
    [["Water", "Fire"], ["Water"]]⟩]

/-! ## Lemmas on the map operations -/

theorem get?_set (m : Elements) (k k' : String) (v : Element) :
    (m.set k v).get? k' = if k = k' then some v else m.get? k' := by
  induction m with
  | nil => simp [Elements.set, Elements.get?]
  | cons p rest ih =>
    obtain ⟨a, b⟩ := p
    by_cases h : a = k
    · subst h
      by_cases h' : a = k' <;> simp [Elements.set, Elements.get?, h']
    · by_cases h' : a = k'
      · subst h'
        have : ¬ k = a := fun e => h e.symm
        simp [Elements.set, Elements.get?, h, this]
      · simp [Elements.set, Elements.get?, h, h', ih]

theorem get?_set_self (m : Elements) (k : String) (v : Element) :
    (m.set k v).get? k = some v := by
  simp [get?_set]

theorem get?_set_ne (m : Elements) {k k' : String} (v : Element) (h : k ≠ k') :
    (m.set k v).get? k' = m.get? k' := by
  simp [get?_set, h]

theorem get?_eq_none_iff (m : Elements) (k : String) :
    m.get? k = none ↔ k ∉ m.keys := by
  induction m with
  | nil => simp [Elements.get?, Elements.keys]
  | cons p rest ih =>
    obtain ⟨a, b⟩ := p
    by_cases h : a = k
    · simp [Elements.get?, Elements.keys, h]
    · have h' : ¬ k = a := fun e => h e.symm
      simpa [Elements.get?, Elements.keys, h, h'] using ih

theorem get?_isSome_iff (m : Elements) (k : String) :
    (∃ e, m.get? k = some e) ↔ k ∈ m.keys := by
  rw [← not_iff_not, ← get?_eq_none_iff]
  cases m.get? k <;> simp

theorem keys_set_of_get? (m : Elements) (k : String) (e v : Element)
    (h : m.get? k = some e) : (m.set k v).keys = m.keys := by
  induction m with
  | nil => simp [Elements.get?] at h
  | cons p rest ih =>
    obtain ⟨a, b⟩ := p
    by_cases hk : a = k
    · simp [Elements.set, Elements.keys, hk]
    · simp only [Elements.get?, hk, if_false] at h
      have := ih h
      simp only [Elements.keys] at this
      simp [Elements.set, Elements.keys, hk, this]

/-- Lookup after a loop that rewrites every record in place. -/
theorem get?_mapValues (f : Element → Element) (m : Elements) (k : String) :
    Elements.get? (m.map fun p => (p.1, f p.2)) k = (m.get? k).map f := by
  induction m with
  | nil => simp [Elements.get?]
  | cons p rest ih =>
    obtain ⟨a, b⟩ := p
    by_cases h : a = k <;> simp [Elements.get?, h, ih]

theorem initBase_eq (m : Elements) : initBase m = m.map fun p => (p.1, initRecord p.2) := by
  unfold initBase
  apply List.map_congr_left
  intro p _
  unfold initRecord
  split <;> rfl

theorem fallback_eq (m : Elements) : fallback m = m.map fun p => (p.1, fallbackRecord p.2) := by
  unfold fallback
  apply List.map_congr_left
  intro p _
  unfold fallbackRecord
  split <;> rfl

theorem get?_initBase (m : Elements) (k : String) :
    (initBase m).get? k = (m.get? k).map initRecord := by
  rw [initBase_eq, get?_mapValues]

theorem get?_fallback (m : Elements) (k : String) :
    (fallback m).get? k = (m.get? k).map fallbackRecord := by
  rw [fallback_eq, get?_mapValues]

theorem keys_initBase (m : Elements) : (initBase m).keys = m.keys := by
  rw [initBase_eq]
  simp [Elements.keys, List.map_map, Function.comp_def]

theorem keys_fallback (m : Elements) : (fallback m).keys = m.keys := by
  rw [fallback_eq]
  simp [Elements.keys, List.map_map, Function.comp_def]

/-! ## The two scanning loops -/

/-- One step of the ingredient loop on a visited ingredient. -/
theorem scanIngredients_cons (m : Elements) (i : String) (rest : List String) (t : Int)
    (e : Element) (hg : m.get? i = some e) (hv : e.visited = true) :
    scanIngredients m (i :: rest) t =
      scanIngredients m rest (if e.Tier > t then e.Tier else t) := by
  rw [scanIngredients]
  simp [hg, hv]

/-- The ingredient loop ends with `allIngredientsVisited` true exactly when every
ingredient is a visited key. -/
theorem scanIngredients_fst (m : Elements) (ings : List String) (t : Int) :
    (scanIngredients m ings t).1 = true ↔
      ∀ i ∈ ings, ∃ e, m.get? i = some e ∧ e.visited = true := by
  induction ings generalizing t with
  | nil => simp [scanIngredients]
  | cons i rest ih =>
    cases hg : m.get? i with
    | none =>
      rw [scanIngredients]
      simp [hg]
    | some e =>
      cases hv : e.visited with
      | false =>
        rw [scanIngredients]
        simp [hg, hv]
      | true =>
        rw [scanIngredients_cons m i rest t e hg hv, ih]
        simp [hg, hv]

/-- When the ingredient loop runs to its end, `recipeTier` is the largest of its
start value and the tiers of the ingredients. -/
theorem scanIngredients_snd (m : Elements) (ings : List String) (t : Int)
    (h : (scanIngredients m ings t).1 = true) :
    t ≤ (scanIngredients m ings t).2 ∧
    (∀ i ∈ ings, tierAt m i ≤ (scanIngredients m ings t).2) ∧
    ((scanIngredients m ings t).2 = t ∨
      ∃ i ∈ ings, tierAt m i = (scanIngredients m ings t).2) := by
  induction ings generalizing t with
  | nil => simp [scanIngredients]
  | cons i rest ih =>
    have hall := (scanIngredients_fst m (i :: rest) t).mp h
    obtain ⟨e, hg, hv⟩ := hall i (List.mem_cons_self _ _)
    have hti : tierAt m i = e.Tier := by simp [tierAt, hg]
    rw [scanIngredients_cons m i rest t e hg hv] at h ⊢
    obtain ⟨h1, h2, h3⟩ := ih (if e.Tier > t then e.Tier else t) h
    have hmax : t ≤ (if e.Tier > t then e.Tier else t) ∧
        e.Tier ≤ (if e.Tier > t then e.Tier else t) := by
      split <;> omega
    refine ⟨by omega, ?_, ?_⟩
    · intro j hj
      rcases List.mem_cons.mp hj with rfl | hj
      · rw [hti]; omega
      · exact h2 j hj
    · rcases h3 with h3 | ⟨j, hj, h3⟩
      · by_cases hlt : e.Tier > t
        · right
          refine ⟨i, List.mem_cons_self _ _, ?_⟩
          rw [hti, h3, if_pos hlt]
        · left
          rw [h3, if_neg hlt]
      · right
        exact ⟨j, List.mem_cons_of_mem _ hj, h3⟩

theorem resolvable_iff (m : Elements) (r : ElementRecipe) :
    Resolvable m r ↔ (scanIngredients m r.Ingredients 0).1 = true :=
  (scanIngredients_fst m r.Ingredients 0).symm

/-- What the recipe loop computes: `maxTier` never decreases, it bounds the tier
of every resolvable recipe seen, and either nothing was recorded or the final
`maxTier` is the tier of a resolvable recipe and `canCalculate` is set. -/
theorem scanRecipes_spec (m : Elements) (rs : List ElementRecipe) (c : Bool) (mt : Int) :
    mt ≤ (scanRecipes m rs c mt).2 ∧
    (∀ r ∈ rs, Resolvable m r → recipeTierOf m r ≤ (scanRecipes m rs c mt).2) ∧
    (scanRecipes m rs c mt = (c, mt) ∨
      ((scanRecipes m rs c mt).1 = true ∧ mt < (scanRecipes m rs c mt).2 ∧
        ∃ r ∈ rs, Resolvable m r ∧ recipeTierOf m r = (scanRecipes m rs c mt).2)) := by
  induction rs generalizing c mt with
  | nil => simp [scanRecipes]
  | cons r rest ih =>
    unfold scanRecipes
    by_cases hr : ((scanIngredients m r.Ingredients 0).1 &&
        decide ((scanIngredients m r.Ingredients 0).2 > mt)) = true
    · simp only [hr, if_true]
      obtain ⟨h1, h2, h3⟩ := ih true (scanIngredients m r.Ingredients 0).2
      simp only [Bool.and_eq_true, decide_eq_true_eq] at hr
      obtain ⟨hres, hgt⟩ := hr
      refine ⟨by omega, ?_, ?_⟩
      · intro r' hr' hres'
        rcases List.mem_cons.mp hr' with rfl | hr'
        · exact h1
        · exact h2 r' hr' hres'
      · right
        rcases h3 with h3 | ⟨h3, h4, r', hr', h5, h6⟩
        · rw [h3]
          exact ⟨rfl, hgt, r, List.mem_cons_self _ _, (resolvable_iff m r).mpr hres, rfl⟩
        · exact ⟨h3, by omega, r', List.mem_cons_of_mem _ hr', h5, h6⟩
    · simp only [hr, if_false, Bool.false_eq_true]
      obtain ⟨h1, h2, h3⟩ := ih c mt
      simp only [Bool.and_eq_true, decide_eq_true_eq, not_and] at hr
      refine ⟨h1, ?_, ?_⟩
      · intro r' hr' hres'
        rcases List.mem_cons.mp hr' with rfl | hr'
        · have := hr ((resolvable_iff m r').mp hres')
          unfold recipeTierOf
          omega
        · exact h2 r' hr' hres'
      · rcases h3 with h3 | ⟨h3, h4, r', hr', h5, h6⟩
        · left; exact h3
        · right; exact ⟨h3, h4, r', List.mem_cons_of_mem _ hr', h5, h6⟩

/-! ## The body of the inner loop -/

/-- A resolvable recipe with at least one ingredient has a positive
`recipeTier`, attained by one of its ingredients, when visited tiers are
positive. -/
theorem recipeTierOf_attained (m : Elements) (r : ElementRecipe)
    (htier : ∀ n e, m.get? n = some e → e.visited = true → 1 ≤ e.Tier)
    (hres : Resolvable m r) (hne : r.Ingredients ≠ []) :
    1 ≤ recipeTierOf m r ∧ ∃ i ∈ r.Ingredients, tierAt m i = recipeTierOf m r := by
  obtain ⟨_, h2, h3⟩ := scanIngredients_snd m r.Ingredients 0 ((resolvable_iff m r).mp hres)
  obtain ⟨i, rest, hir⟩ := List.exists_cons_of_ne_nil hne
  have hi : i ∈ r.Ingredients := by rw [hir]; exact List.mem_cons_self _ _
  obtain ⟨e, hg, hv⟩ := hres i hi
  have hpos : 1 ≤ recipeTierOf m r := by
    have h1 := htier i e hg hv
    have h2i := h2 i hi
    simp only [tierAt, hg] at h2i
    unfold recipeTierOf
    omega
  refine ⟨hpos, ?_⟩
  rcases h3 with h3 | h3
  · unfold recipeTierOf at hpos
    omega
  · exact h3

/-- A resolvable recipe's `recipeTier` bounds the tier of each ingredient. -/
theorem tierAt_le_recipeTierOf (m : Elements) (r : ElementRecipe) (hres : Resolvable m r) :
    ∀ i ∈ r.Ingredients, tierAt m i ≤ recipeTierOf m r :=
  (scanIngredients_snd m r.Ingredients 0 ((resolvable_iff m r).mp hres)).2.1

/-- The body of the inner loop when `canCalculate` ends up true. -/
theorem visitElement_resolve (m : Elements) (c : Bool) (name : String) (elem : Element)
    (hget : m.get? name = some elem) (hv : elem.visited = false)
    (hcan : (scanRecipes m elem.Recipes false 0).1 = true) :
    visitElement (m, c) name =
      (m.set name { elem with Tier := (scanRecipes m elem.Recipes false 0).2 + 1,
                              visited := true }, true) := by
  simp [visitElement, hget, hv, hcan]

/-- The body of the inner loop when `canCalculate` stays false. -/
theorem visitElement_skip (m : Elements) (c : Bool) (name : String) (elem : Element)
    (hget : m.get? name = some elem)
    (hcan : (scanRecipes m elem.Recipes false 0).1 = false) :
    visitElement (m, c) name = (m, c) := by
  simp [visitElement, hget, hcan]

/-- The body of the inner loop on an element that is already visited. -/
theorem visitElement_visited (m : Elements) (c : Bool) (name : String) (elem : Element)
    (hget : m.get? name = some elem) (hv : elem.visited = true) :
    visitElement (m, c) name = (m, c) := by
  simp [visitElement, hget, hv]

/-- The body of the inner loop on a name that is not a key. -/
theorem visitElement_absent (m : Elements) (c : Bool) (name : String)
    (hget : m.get? name = none) :
    visitElement (m, c) name = (m, c) := by
  simp [visitElement, hget]

/-- When `canCalculate` stays false, no recipe is resolvable with a positive
tier. -/
theorem scanRecipes_false (m : Elements) (rs : List ElementRecipe)
    (hcan : (scanRecipes m rs false 0).1 = false) :
    ∀ r ∈ rs, Resolvable m r → recipeTierOf m r ≤ 0 := by
  obtain ⟨_, h2, h3⟩ := scanRecipes_spec m rs false 0
  rcases h3 with h3 | ⟨h3, _⟩
  · intro r hr hres
    have := h2 r hr hres
    rw [h3] at this
    exact this
  · rw [hcan] at h3
    exact absurd h3 (by simp)

/-- When `canCalculate` ends up true, `maxTier` is positive, is the tier of a
resolvable recipe and bounds the tier of every resolvable recipe. -/
theorem scanRecipes_true (m : Elements) (rs : List ElementRecipe)
    (hcan : (scanRecipes m rs false 0).1 = true) :
    0 < (scanRecipes m rs false 0).2 ∧
    (∀ r ∈ rs, Resolvable m r → recipeTierOf m r ≤ (scanRecipes m rs false 0).2) ∧
    ∃ r ∈ rs, Resolvable m r ∧ recipeTierOf m r = (scanRecipes m rs false 0).2 := by
  obtain ⟨_, h2, h3⟩ := scanRecipes_spec m rs false 0
  rcases h3 with h3 | ⟨_, h4, h5⟩
  · rw [h3] at hcan
    exact absurd hcan (by simp)
  · exact ⟨h4, h2, h5⟩

/-- `canCalculate` ends up true as soon as one recipe is resolvable with a
positive tier. -/
theorem scanRecipes_of_resolvable (m : Elements) (rs : List ElementRecipe)
    (r : ElementRecipe) (hr : r ∈ rs) (hres : Resolvable m r) (hpos : 0 < recipeTierOf m r) :
    (scanRecipes m rs false 0).1 = true := by
  cases hcan : (scanRecipes m rs false 0).1 with
  | true => rfl
  | false =>
    have := scanRecipes_false m rs hcan r hr hres
    omega

/-- Go's addition returns the mathematical sum inside the 64-bit range. -/
theorem wrapInt64_of_range (x : Int) (hlo : -9223372036854775808 ≤ x) (hhi : x ≤ maxInt64) :
    wrapInt64 x = x := by
  unfold maxInt64 at hhi
  unfold wrapInt64
  omega

/-- Claim C1 (the per-entity step of the tier loop).  Let `elem` be the record
of a key `name` that is not yet visited, in a state whose visited records have
a tier that is at least 1 and below the largest Go `int`.  If some recipe of
`elem` with at least one ingredient has all its ingredients present and visited,
the loop body stores under `name` the record marked visited with tier `m + 1`
and sets `changed`, where `m` is the largest ingredient tier over all resolvable
recipes: it bounds the tier of every ingredient of every resolvable recipe and
is the tier of one such ingredient; the sum `m + 1` does not leave the range of
a Go `int`, so it is the value line 405 stores.  If no recipe is resolvable, the
body leaves the map and `changed` as they are. -/
theorem visitElement_step (elements : Elements) (changed : Bool) (name : String)
    (elem : Element)
    (hget : elements.get? name = some elem) (hunres : elem.visited = false)
    (htier : ∀ n e, elements.get? n = some e → e.visited = true → 1 ≤ e.Tier)
    (hbound : ∀ n e, elements.get? n = some e → e.visited = true → e.Tier < maxInt64) :
    ((∃ r ∈ elem.Recipes, Resolvable elements r ∧ r.Ingredients ≠ []) →
      ∃ m : Int,
        visitElement (elements, changed) name =
          (elements.set name { elem with Tier := m + 1, visited := true }, true) ∧
        (visitElement (elements, changed) name).1.get? name =
          some { elem with Tier := m + 1, visited := true } ∧
        (∀ r ∈ elem.Recipes, Resolvable elements r →
          ∀ i ∈ r.Ingredients, tierAt elements i ≤ m) ∧
        (∃ r ∈ elem.Recipes, Resolvable elements r ∧
          ∃ i ∈ r.Ingredients, tierAt elements i = m) ∧
        m + 1 ≤ maxInt64 ∧ wrapInt64 (m + 1) = m + 1) ∧
    ((∀ r ∈ elem.Recipes, ¬ Resolvable elements r) →
      visitElement (elements, changed) name = (elements, changed)) := by
  constructor
  · rintro ⟨r, hr, hres, hne⟩
    have hpos := (recipeTierOf_attained elements r htier hres hne).1
    have hcan := scanRecipes_of_resolvable elements elem.Recipes r hr hres (by omega)
    obtain ⟨hm0, hub, r', hr', hres', hrt'⟩ := scanRecipes_true elements elem.Recipes hcan
    have hstep := visitElement_resolve elements changed name elem hget hunres hcan
    have hne' : r'.Ingredients ≠ [] := by
      intro hnil
      have : recipeTierOf elements r' = 0 := by
        simp [recipeTierOf, hnil, scanIngredients]
      omega
    obtain ⟨_, i, hi, hti⟩ := recipeTierOf_attained elements r' htier hres' hne'
    have hmi : tierAt elements i = (scanRecipes elements elem.Recipes false 0).2 :=
      hti.trans hrt'
    have hlt : (scanRecipes elements elem.Recipes false 0).2 < maxInt64 := by
      obtain ⟨ei, hgi, hvi⟩ := hres' i hi
      have := hbound i ei hgi hvi
      rw [← hmi]
      simpa [tierAt, hgi] using this
    refine ⟨(scanRecipes elements elem.Recipes false 0).2, hstep, ?_, ?_, ?_, ?_, ?_⟩
    · rw [hstep]
      exact get?_set_self _ _ _
    · intro r₁ hr₁ hres₁ i hi
      exact le_trans (tierAt_le_recipeTierOf elements r₁ hres₁ i hi) (hub r₁ hr₁ hres₁)
    · exact ⟨r', hr', hres', i, hi, hmi⟩
    · omega
    · exact wrapInt64_of_range _ (by omega) (by omega)
  · intro hnone
    apply visitElement_skip elements changed name elem hget
    cases hcan : (scanRecipes elements elem.Recipes false 0).1 with
    | false => rfl
    | true =>
      obtain ⟨_, _, r', hr', hres', _⟩ := scanRecipes_true elements elem.Recipes hcan
      exact absurd hres' (hnone r' hr')

theorem get?_mem (m : Elements) (n : String) (e : Element) (h : m.get? n = some e) :
    (n, e) ∈ m := by
  induction m with
  | nil => simp [Elements.get?] at h
  | cons p rest ih =>
    obtain ⟨a, b⟩ := p
    by_cases hk : a = n
    · simp only [Elements.get?, hk, if_true, Option.some.injEq] at h
      subst h; subst hk
      exact List.mem_cons_self _ _
    · simp only [Elements.get?, hk, if_false] at h
      exact List.mem_cons_of_mem _ (ih h)

/-- A property of key and record, checked entry by entry. -/
theorem forall_get?_of_entries (m : Elements) (P : String → Element → Prop)
    (h : ∀ p ∈ m, P p.1 p.2) : ∀ n e, m.get? n = some e → P n e :=
  fun n e hg => h (n, e) (get?_mem m n e hg)

/-- A map none of whose entries is marked visited is fresh. -/
theorem fresh_of_entries (g : Elements) (h : ∀ p ∈ g, p.2.visited = false) : Fresh g :=
  fun n e hg => h (n, e) (get?_mem g n e hg)

/-- Positivity of the visited tiers, checked entry by entry. -/
theorem tier_pos_of_entries (m : Elements)
    (h : ∀ p ∈ m, p.2.visited = true → 1 ≤ p.2.Tier) :
    ∀ n e, m.get? n = some e → e.visited = true → 1 ≤ e.Tier :=
  fun n e hg => h (n, e) (get?_mem m n e hg)

theorem visitElement_step_witness :
    (initBase diamond).get? "Target" = some (mkElem "Target" [["A", "B"], ["C", "A"]]) ∧
    (mkElem "Target" [["A", "B"], ["C", "A"]]).visited = false ∧
    (∀ n e, (initBase diamond).get? n = some e → e.visited = true → 1 ≤ e.Tier) ∧
    (∀ n e, (initBase diamond).get? n = some e → e.visited = true → e.Tier < maxInt64) ∧
    (∃ r ∈ (mkElem "Target" [["A", "B"], ["C", "A"]]).Recipes,
      Resolvable (initBase diamond) r ∧ r.Ingredients ≠ []) ∧
    ∃ m : Int,
      visitElement (initBase diamond, false) "Target" =
        ((initBase diamond).set "Target"
          { mkElem "Target" [["A", "B"], ["C", "A"]] with Tier := m + 1, visited := true },
          true) ∧
      (visitElement (initBase diamond, false) "Target").1.get? "Target" =
        some { mkElem "Target" [["A", "B"], ["C", "A"]] with
                Tier := m + 1, visited := true } ∧
      (∀ r ∈ (mkElem "Target" [["A", "B"], ["C", "A"]]).Recipes,
        Resolvable (initBase diamond) r →
          ∀ i ∈ r.Ingredients, tierAt (initBase diamond) i ≤ m) ∧
      (∃ r ∈ (mkElem "Target" [["A", "B"], ["C", "A"]]).Recipes,
        Resolvable (initBase diamond) r ∧
          ∃ i ∈ r.Ingredients, tierAt (initBase diamond) i = m) ∧
      m + 1 ≤ maxInt64 ∧ wrapInt64 (m + 1) = m + 1 :=
  have hres : ∃ r ∈ (mkElem "Target" [["A", "B"], ["C", "A"]]).Recipes,
      Resolvable (initBase diamond) r ∧ r.Ingredients ≠ [] :=
    ⟨⟨["A", "B"]⟩, by decide,
      (resolvable_iff (initBase diamond) ⟨["A", "B"]⟩).mpr (by decide), by decide⟩
  have htier : ∀ n e, (initBase diamond).get? n = some e → e.visited = true → 1 ≤ e.Tier :=
    tier_pos_of_entries (initBase diamond) (by decide)
  have hbound : ∀ n e, (initBase diamond).get? n = some e → e.visited = true →
      e.Tier < maxInt64 :=
    forall_get?_of_entries (initBase diamond) (fun _ e => e.visited = true → e.Tier < maxInt64)
      (by decide)
  ⟨by decide, by decide, htier, hbound, hres,
    (visitElement_step (initBase diamond) false "Target"
      (mkElem "Target" [["A", "B"], ["C", "A"]]) (by decide) (by decide)
      htier hbound).1 hres⟩

/-! ## Invariants of the loops -/

theorem RecStep.same (e : Element) : RecStep e e := Or.inl rfl

theorem RecStep.comp {a b c : Element} (h₁ : RecStep a b) (h₂ : RecStep b c) :
    RecStep a c := by
  rcases h₁ with rfl | ⟨hv, hr, t, ht, rfl⟩
  · exact h₂
  · rcases h₂ with rfl | ⟨hv', _⟩
    · exact Or.inr ⟨hv, hr, t, ht, rfl⟩
    · simp at hv'

theorem RecStep.recipes {e e' : Element} (h : RecStep e e') : e'.Recipes = e.Recipes := by
  rcases h with rfl | ⟨_, _, t, _, rfl⟩ <;> rfl

theorem RecStep.of_visited {e e' : Element} (h : RecStep e e') (hv : e.visited = true) :
    e' = e := by
  rcases h with rfl | ⟨hv', _⟩
  · rfl
  · rw [hv] at hv'; exact absurd hv' (by simp)

theorem Evolves.refl (m : Elements) : Evolves m m := by
  intro k
  cases h : m.get? k with
  | none => exact Or.inl ⟨rfl, rfl⟩
  | some e => exact Or.inr ⟨e, e, rfl, rfl, RecStep.same e⟩

theorem Evolves.trans {a b c : Elements} (h₁ : Evolves a b) (h₂ : Evolves b c) :
    Evolves a c := by
  intro k
  rcases h₁ k with ⟨ha, hb⟩ | ⟨e, e', ha, hb, hs⟩
  · rcases h₂ k with ⟨_, hc⟩ | ⟨e₁, _, hb', _, _⟩
    · exact Or.inl ⟨ha, hc⟩
    · rw [hb] at hb'; exact absurd hb' (by simp)
  · rcases h₂ k with ⟨hb', _⟩ | ⟨e₁, e₂, hb', hc, hs'⟩
    · rw [hb] at hb'; exact absurd hb' (by simp)
    · rw [hb] at hb'
      cases hb'
      exact Or.inr ⟨e, e₂, ha, hc, hs.comp hs'⟩

theorem Evolves.get?_none {m m' : Elements} (h : Evolves m m') {k : String} :
    m'.get? k = none ↔ m.get? k = none := by
  rcases h k with ⟨ha, hb⟩ | ⟨e, e', ha, hb, _⟩ <;> simp [ha, hb]

theorem Evolves.get?_some {m m' : Elements} (h : Evolves m m') {k : String} {e : Element}
    (hk : m.get? k = some e) : ∃ e', m'.get? k = some e' ∧ RecStep e e' := by
  rcases h k with ⟨ha, _⟩ | ⟨e₁, e', ha, hb, hs⟩
  · rw [hk] at ha; exact absurd ha (by simp)
  · rw [hk] at ha
    cases ha
    exact ⟨e', hb, hs⟩

theorem Evolves.get?_some_rev {m m' : Elements} (h : Evolves m m') {k : String}
    {e' : Element} (hk : m'.get? k = some e') : ∃ e, m.get? k = some e ∧ RecStep e e' := by
  rcases h k with ⟨_, hb⟩ | ⟨e, e₁, ha, hb, hs⟩
  · rw [hk] at hb; exact absurd hb (by simp)
  · rw [hk] at hb
    cases hb
    exact ⟨e, ha, hs⟩

/-- A visited record is never touched again. -/
theorem Evolves.frozen {m m' : Elements} (h : Evolves m m') {k : String} {e : Element}
    (hk : m.get? k = some e) (hv : e.visited = true) : m'.get? k = some e := by
  obtain ⟨e', hk', hs⟩ := h.get?_some hk
  rw [hk', hs.of_visited hv]

/-- Resolvable recipes stay resolvable, with the same ingredient tiers. -/
theorem Evolves.resolvable {m m' : Elements} (h : Evolves m m') {r : ElementRecipe}
    (hr : Resolvable m r) : Resolvable m' r := by
  intro i hi
  obtain ⟨e, hg, hv⟩ := hr i hi
  exact ⟨e, h.frozen hg hv, hv⟩

/-- The body of the inner loop either changes nothing or resolves the element it
was called for. -/
theorem visitElement_cases (m : Elements) (c : Bool) (name : String) :
    visitElement (m, c) name = (m, c) ∨
    ∃ elem, m.get? name = some elem ∧ elem.visited = false ∧
      (scanRecipes m elem.Recipes false 0).1 = true ∧
      visitElement (m, c) name =
        (m.set name { elem with Tier := (scanRecipes m elem.Recipes false 0).2 + 1,
                                visited := true }, true) := by
  cases hget : m.get? name with
  | none => exact Or.inl (visitElement_absent m c name hget)
  | some elem =>
    cases hv : elem.visited with
    | true => exact Or.inl (visitElement_visited m c name elem hget hv)
    | false =>
      cases hcan : (scanRecipes m elem.Recipes false 0).1 with
      | false => exact Or.inl (visitElement_skip m c name elem hget hcan)
      | true =>
        exact Or.inr ⟨elem, rfl, hv, hcan, visitElement_resolve m c name elem hget hv hcan⟩

/-- Overwriting the record of an unvisited key that has recipes by its resolved
version is an admissible change of the map. -/
theorem Evolves.set (m : Elements) (name : String) (elem : Element) (t : Int)
    (hget : m.get? name = some elem) (hv : elem.visited = false)
    (hr : elem.Recipes ≠ []) (ht : 2 ≤ t) :
    Evolves m (m.set name { elem with Tier := t, visited := true }) := by
  intro k
  by_cases hk : name = k
  · subst hk
    exact Or.inr ⟨elem, _, hget, get?_set_self _ _ _, Or.inr ⟨hv, hr, t, ht, rfl⟩⟩
  · rw [get?_set_ne m _ hk]
    cases h : m.get? k with
    | none => exact Or.inl ⟨rfl, rfl⟩
    | some e => exact Or.inr ⟨e, e, rfl, rfl, RecStep.same e⟩

theorem visitElement_evolves (m : Elements) (c : Bool) (name : String) :
    Evolves m (visitElement (m, c) name).1 := by
  rcases visitElement_cases m c name with h | ⟨elem, hget, hv, hcan, h⟩
  · rw [h]; exact Evolves.refl m
  · rw [h]
    obtain ⟨hpos, _, r, hr, _⟩ := scanRecipes_true m elem.Recipes hcan
    exact Evolves.set m name elem _ hget hv (List.ne_nil_of_mem hr) (by omega)

/-- A property of the map that every run of the loop body preserves holds after
an iteration of the outer loop. -/
theorem tierPass_preserves (P : Elements → Prop)
    (hstep : ∀ m c n, P m → P (visitElement (m, c) n).1)
    (order : List String) (m : Elements) (h : P m) : P (tierPass order m).1 := by
  unfold tierPass
  generalize false = c
  induction order generalizing m c with
  | nil => exact h
  | cons n rest ih =>
    rw [List.foldl_cons]
    exact ih (visitElement (m, c) n).1 (hstep m c n h) (visitElement (m, c) n).2

/-- A property of the map that every run of the loop body preserves holds when
the outer loop ends. -/
theorem tierLoop_preserves (P : Elements → Prop)
    (hstep : ∀ m c n, P m → P (visitElement (m, c) n).1)
    (orders : Nat → List String) (k it : Nat) (m : Elements) (h : P m) :
    P (tierLoop orders k it m).elements := by
  induction k generalizing it m with
  | zero => exact h
  | succ k ih =>
    rw [tierLoop]
    have hp := tierPass_preserves P hstep (orders (it + 1)) m h
    by_cases hc : (tierPass (orders (it + 1)) m).2 = true
    · simp only [hc, if_true]
      exact ih (it + 1) _ hp
    · simp only [hc, if_false, Bool.false_eq_true]
      exact hp

theorem tierPass_evolves (order : List String) (m : Elements) :
    Evolves m (tierPass order m).1 :=
  tierPass_preserves (Evolves m)
    (fun m' c n h => h.trans (visitElement_evolves m' c n)) order m (Evolves.refl m)

theorem tierLoop_evolves (orders : Nat → List String) (k it : Nat) (m : Elements) :
    Evolves m (tierLoop orders k it m).elements :=
  tierLoop_preserves (Evolves m)
    (fun m' c n h => h.trans (visitElement_evolves m' c n)) orders k it m (Evolves.refl m)

theorem runLoop_evolves (orders : Nat → List String) (g : Elements) :
    Evolves (initBase g) (runLoop orders g).elements :=
  tierLoop_evolves orders maxIterations 0 (initBase g)

/-- After the base initialisation of a fresh map, the visited records are the
recipe-less ones, and they have tier 1. -/
theorem initBase_fresh (g : Elements) (hf : Fresh g) (k : String) (e : Element)
    (hk : (initBase g).get? k = some e) :
    (e.Recipes = [] ∧ e.visited = true ∧ e.Tier = 1) ∨
    (e.Recipes ≠ [] ∧ e.visited = false ∧ g.get? k = some e) := by
  rw [get?_initBase] at hk
  cases hg : g.get? k with
  | none => simp [hg] at hk
  | some e₀ =>
    simp only [hg, Option.map_some', Option.some.injEq] at hk
    subst hk
    unfold initRecord
    by_cases h0 : e₀.Recipes.length = 0
    · left
      rw [if_pos h0]
      exact ⟨List.length_eq_zero.mp h0, rfl, rfl⟩
    · right
      rw [if_neg h0]
      exact ⟨fun h => h0 (by simp [h]), hf k e₀ hg, rfl⟩

/-- In every state the loop reaches from a fresh map, a record is either a
visited base record of tier 1, or a record with recipes that is unvisited or
visited with tier at least 2. -/
theorem reached_shape (g m : Elements) (hf : Fresh g) (hev : Evolves (initBase g) m)
    (k : String) (e : Element) (hk : m.get? k = some e) :
    (e.Recipes = [] ∧ e.visited = true ∧ e.Tier = 1) ∨
    (e.Recipes ≠ [] ∧ (e.visited = false ∨ 2 ≤ e.Tier)) := by
  obtain ⟨e₀, hk₀, hs⟩ := hev.get?_some_rev hk
  rcases initBase_fresh g hf k e₀ hk₀ with ⟨h1, h2, h3⟩ | ⟨h1, h2, _⟩
  · rw [hs.of_visited h2]
    exact Or.inl ⟨h1, h2, h3⟩
  · right
    rcases hs with rfl | ⟨_, _, t, ht, rfl⟩
    · exact ⟨h1, Or.inl h2⟩
    · exact ⟨h1, Or.inr ht⟩

/-- Visited records have tier at least 1 in every state the loop reaches from a
fresh map. -/
theorem reached_tier_pos (g m : Elements) (hf : Fresh g) (hev : Evolves (initBase g) m) :
    ∀ n e, m.get? n = some e → e.visited = true → 1 ≤ e.Tier := by
  intro n e hk hv
  rcases reached_shape g m hf hev n e hk with ⟨_, _, h⟩ | ⟨_, h | h⟩
  · omega
  · rw [hv] at h; exact absurd h (by simp)
  · omega

/-! ## Base case, fallback and output range -/

/-- Claim C5 (base case).  A key whose record has no recipes holds, right after
the base initialisation and before the first iteration of the loop, that record
marked visited with tier 1, and it holds the same record when the whole tier
calculation is over. -/
theorem base_case (orders : Nat → List String) (g : Elements) (name : String)
    (e : Element) (hget : g.get? name = some e) (hbase : e.Recipes = []) :
    (initBase g).get? name = some { e with Tier := 1, visited := true } ∧
    (resolveTiers orders g).get? name = some { e with Tier := 1, visited := true } := by
  have hinit : (initBase g).get? name = some { e with Tier := 1, visited := true } := by
    rw [get?_initBase, hget]
    simp [initRecord, hbase]
  refine ⟨hinit, ?_⟩
  have hloop := (runLoop_evolves orders g).frozen hinit rfl
  unfold resolveTiers
  rw [get?_fallback, hloop]
  simp [fallbackRecord]

theorem base_case_witness :
    diamond.get? "A" = some (baseElem "A") ∧ (baseElem "A").Recipes = [] ∧
    ((initBase diamond).get? "A" =
        some { baseElem "A" with Tier := 1, visited := true } ∧
      (resolveTiers (fun _ => ["C", "Target", "A", "B"]) diamond).get? "A" =
        some { baseElem "A" with Tier := 1, visited := true }) :=
  ⟨by decide, by decide,
    base_case (fun _ => ["C", "Target", "A", "B"]) diamond "A" (baseElem "A")
      (by decide) (by decide)⟩

/-- The claim C3 as stated fails: in the cycle `A = B + X`, `B = A + X` the key
`A` is left to the fallback pass, which gives it tier 1 but leaves its `visited`
flag false. -/
theorem fallback_leaves_flag :
    (resolveTiers (fun _ => ["A", "B", "X"]) cycleGraph).get? "A" =
      some { mkElem "A" [["B", "X"]] with Tier := 1, visited := false } := by
  decide

/-- Claim C3, amended.  A key whose record is not visited when the loop ends
holds that record with tier 1 after the fallback pass, the flag still false; a
key whose record is visited when the loop ends keeps its record. -/
theorem fallback_result (orders : Nat → List String) (g : Elements) (name : String)
    (e : Element) (hget : (runLoop orders g).elements.get? name = some e) :
    (e.visited = false →
      (resolveTiers orders g).get? name = some { e with Tier := 1 }) ∧
    (e.visited = true → (resolveTiers orders g).get? name = some e) := by
  unfold resolveTiers
  rw [get?_fallback, hget]
  constructor <;> intro hv <;> simp [fallbackRecord, hv]

theorem fallback_result_witness :
    (runLoop (fun _ => ["A", "B", "X"]) cycleGraph).elements.get? "B" =
      some (mkElem "B" [["A", "X"]]) ∧
    (((mkElem "B" [["A", "X"]]).visited = false →
      (resolveTiers (fun _ => ["A", "B", "X"]) cycleGraph).get? "B" =
        some { mkElem "B" [["A", "X"]] with Tier := 1 }) ∧
    ((mkElem "B" [["A", "X"]]).visited = true →
      (resolveTiers (fun _ => ["A", "B", "X"]) cycleGraph).get? "B" =
        some (mkElem "B" [["A", "X"]]))) :=
  ⟨by decide,
    fallback_result (fun _ => ["A", "B", "X"]) cycleGraph "B" (mkElem "B" [["A", "X"]])
      (by decide)⟩

/-- Claim C6 (output range).  After the tier calculation on a fresh map every
record has tier at least 1, and a record that has recipes and is marked visited
(resolved by the loop, neither base nor fallback) has tier at least 2. -/
theorem output_range (orders : Nat → List String) (g : Elements) (hf : Fresh g)
    (name : String) (e : Element)
    (hget : (resolveTiers orders g).get? name = some e) :
    1 ≤ e.Tier ∧ (e.visited = true → e.Recipes ≠ [] → 2 ≤ e.Tier) := by
  unfold resolveTiers at hget
  rw [get?_fallback] at hget
  cases hl : (runLoop orders g).elements.get? name with
  | none => simp [hl] at hget
  | some e₁ =>
    simp only [hl, Option.map_some', Option.some.injEq] at hget
    subst hget
    have hshape := reached_shape g _ hf (runLoop_evolves orders g) name e₁ hl
    cases hv : e₁.visited with
    | false =>
      simp [fallbackRecord, hv]
    | true =>
      simp only [fallbackRecord, hv, Bool.not_true, Bool.false_eq_true, if_false]
      rcases hshape with ⟨h1, _, h3⟩ | ⟨_, h | h⟩
      · exact ⟨by omega, fun _ hne => absurd h1 hne⟩
      · rw [hv] at h; exact absurd h (by simp)
      · exact ⟨by omega, fun _ _ => h⟩

theorem output_range_witness :
    Fresh diamond ∧
    (resolveTiers (fun _ => ["C", "Target", "A", "B"]) diamond).get? "Target" =
      some { mkElem "Target" [["A", "B"], ["C", "A"]] with Tier := 3, visited := true } ∧
    (1 ≤ ({ mkElem "Target" [["A", "B"], ["C", "A"]] with
            Tier := 3, visited := true } : Element).Tier ∧
      (({ mkElem "Target" [["A", "B"], ["C", "A"]] with
            Tier := 3, visited := true } : Element).visited = true →
        ({ mkElem "Target" [["A", "B"], ["C", "A"]] with
            Tier := 3, visited := true } : Element).Recipes ≠ [] →
        2 ≤ ({ mkElem "Target" [["A", "B"], ["C", "A"]] with
            Tier := 3, visited := true } : Element).Tier)) :=
  ⟨fresh_of_entries diamond (by decide), by decide,
    output_range (fun _ => ["C", "Target", "A", "B"]) diamond
      (fresh_of_entries diamond (by decide)) "Target" _ (by decide)⟩

/-! ## Cycles and dangling references -/

/-- A record the loop has not visited is still the record of the input map. -/
theorem reached_unvisited (g m : Elements) (hf : Fresh g) (hev : Evolves (initBase g) m)
    (k : String) (e : Element) (hk : m.get? k = some e) (hv : e.visited = false) :
    g.get? k = some e ∧ e.Recipes ≠ [] := by
  obtain ⟨e₀, hk₀, hs⟩ := hev.get?_some_rev hk
  have he : e = e₀ := by
    rcases hs with rfl | ⟨_, _, t, _, rfl⟩
    · rfl
    · simp at hv
  subst he
  rcases initBase_fresh g hf k e hk₀ with ⟨_, h2, _⟩ | ⟨h1, _, h3⟩
  · rw [hv] at h2; exact absurd h2 (by simp)
  · exact ⟨h3, h1⟩

/-- A key of the input map whose record has recipes holds, in every state the
loop reaches, that record or its resolved version. -/
theorem reached_of_input (g m : Elements) (hev : Evolves (initBase g) m)
    (k : String) (e : Element) (hk : g.get? k = some e) (hr : e.Recipes ≠ []) :
    ∃ e', m.get? k = some e' ∧ RecStep e e' := by
  have hinit : (initBase g).get? k = some e := by
    rw [get?_initBase, hk]
    have : ¬ e.Recipes.length = 0 := fun h => hr (List.length_eq_zero.mp h)
    simp [initRecord, this]
  exact hev.get?_some hinit

/-- A name that is not a key of the input map is not a key of any state the
loop reaches. -/
theorem reached_absent (g m : Elements) (hev : Evolves (initBase g) m)
    (k : String) (hk : g.get? k = none) : m.get? k = none := by
  rw [hev.get?_none, get?_initBase, hk]
  rfl

/-- The members of a set closed under "every recipe needs a member or a missing
name" stay unvisited under the loop body. -/
theorem closed_set_step (g : Elements) (hf : Fresh g) (S : String → Prop)
    (hS : ∀ n e, S n → g.get? n = some e →
      e.Recipes ≠ [] ∧ ∀ r ∈ e.Recipes, ∃ i ∈ r.Ingredients, g.get? i = none ∨ S i)
    (m : Elements) (c : Bool) (n' : String)
    (h : Evolves (initBase g) m ∧ ∀ n e, S n → m.get? n = some e → e.visited = false) :
    Evolves (initBase g) (visitElement (m, c) n').1 ∧
      ∀ n e, S n → (visitElement (m, c) n').1.get? n = some e → e.visited = false := by
  obtain ⟨hev, hinv⟩ := h
  refine ⟨hev.trans (visitElement_evolves m c n'), ?_⟩
  rcases visitElement_cases m c n' with hc | ⟨elem, hget, hv, hcan, hc⟩
  · rw [hc]; exact hinv
  · rw [hc]
    have hnot : ¬ S n' := by
      intro hn'
      obtain ⟨hg, _⟩ := reached_unvisited g m hf hev n' elem hget hv
      obtain ⟨_, _, r, hr, hres, _⟩ := scanRecipes_true m elem.Recipes hcan
      obtain ⟨i, hi, hi'⟩ := (hS n' elem hn' hg).2 r hr
      obtain ⟨ei, hgi, hvi⟩ := hres i hi
      rcases hi' with hnone | hSi
      · rw [reached_absent g m hev i hnone] at hgi
        exact absurd hgi (by simp)
      · rw [hinv i ei hSi hgi] at hvi
        exact absurd hvi (by simp)
    intro n e hn hge
    have hne : n' ≠ n := fun heq => hnot (heq ▸ hn)
    rw [get?_set_ne m _ hne] at hge
    exact hinv n e hn hge

/-- Claim C4 (cycle and dangling-reference fallback).  Let `S` be a set of names
such that every member that is a key has at least one recipe and each of its
recipes contains an ingredient that is missing from the map or a member of `S`.
Then, whatever the visiting orders, a member that is a key still holds its input
record, not visited, after any number of iterations of the loop, and holds it
with tier 1 after the fallback pass. -/
theorem cycle_fallback (orders : Nat → List String) (g : Elements) (hf : Fresh g)
    (S : String → Prop)
    (hS : ∀ n e, S n → g.get? n = some e →
      e.Recipes ≠ [] ∧ ∀ r ∈ e.Recipes, ∃ i ∈ r.Ingredients, g.get? i = none ∨ S i)
    (name : String) (e : Element) (hname : S name) (hget : g.get? name = some e) :
    (∀ k, (tierLoop orders k 0 (initBase g)).elements.get? name = some e) ∧
    e.visited = false ∧
    (resolveTiers orders g).get? name = some { e with Tier := 1 } := by
  have hloop : ∀ k, (tierLoop orders k 0 (initBase g)).elements.get? name = some e := by
    intro k
    have hinit : ∀ n e, S n → (initBase g).get? n = some e → e.visited = false := by
      intro n e' hn hge
      rcases initBase_fresh g hf n e' hge with ⟨h1, _, _⟩ | ⟨_, h2, _⟩
      · rw [get?_initBase] at hge
        cases hg : g.get? n with
        | none => simp [hg] at hge
        | some e₀ =>
          simp only [hg, Option.map_some', Option.some.injEq] at hge
          have hrec : e'.Recipes = e₀.Recipes := by
            rw [← hge]; unfold initRecord; split <;> rfl
          exact absurd (hrec ▸ h1) (hS n e₀ hn hg).1
      · exact h2
    obtain ⟨hev, hinv⟩ := tierLoop_preserves
      (fun m => Evolves (initBase g) m ∧ ∀ n e, S n → m.get? n = some e → e.visited = false)
      (fun m c n h => closed_set_step g hf S hS m c n h) orders k 0 (initBase g)
      ⟨Evolves.refl _, hinit⟩
    obtain ⟨e', hk', hs⟩ := reached_of_input g _ hev name e hget (hS name e hname hget).1
    have hv' := hinv name e' hname hk'
    rcases hs with rfl | ⟨_, _, t, _, rfl⟩
    · exact hk'
    · simp at hv'
  have hv : e.visited = false := hf name e hget
  refine ⟨hloop, hv, ?_⟩
  unfold resolveTiers runLoop
  rw [get?_fallback, hloop maxIterations]
  simp [fallbackRecord, hv]

theorem cycle_fallback_witness :
    Fresh cycleGraph ∧
    (∀ n e, (n = "A" ∨ n = "B") → cycleGraph.get? n = some e →
      e.Recipes ≠ [] ∧
        ∀ r ∈ e.Recipes, ∃ i ∈ r.Ingredients, cycleGraph.get? i = none ∨ (i = "A" ∨ i = "B")) ∧
    (fun n => n = "A" ∨ n = "B") "A" ∧
    cycleGraph.get? "A" = some (mkElem "A" [["B", "X"]]) ∧
    ((∀ k, (tierLoop (fun _ => ["X", "B", "A"]) k 0 (initBase cycleGraph)).elements.get? "A" =
        some (mkElem "A" [["B", "X"]])) ∧
      (mkElem "A" [["B", "X"]]).visited = false ∧
      (resolveTiers (fun _ => ["X", "B", "A"]) cycleGraph).get? "A" =
        some { mkElem "A" [["B", "X"]] with Tier := 1 }) :=
  have hS : ∀ n e, (n = "A" ∨ n = "B") → cycleGraph.get? n = some e →
      e.Recipes ≠ [] ∧
        ∀ r ∈ e.Recipes, ∃ i ∈ r.Ingredients,
          cycleGraph.get? i = none ∨ (i = "A" ∨ i = "B") := by
    intro n e hn hg
    rcases hn with rfl | rfl
    · have he : cycleGraph.get? "A" = some (mkElem "A" [["B", "X"]]) := by decide
      rw [he] at hg
      cases hg
      decide
    · have he : cycleGraph.get? "B" = some (mkElem "B" [["A", "X"]]) := by decide
      rw [he] at hg
      cases hg
      decide
  ⟨fresh_of_entries cycleGraph (by decide), hS, Or.inl rfl, by decide,
    cycle_fallback (fun _ => ["X", "B", "A"]) cycleGraph
      (fresh_of_entries cycleGraph (by decide)) (fun n => n = "A" ∨ n = "B") hS
      "A" (mkElem "A" [["B", "X"]]) (Or.inl rfl) (by decide)⟩

/-! ## The state when an iteration makes no progress -/

/-- Once `changed` is set, the inner loop leaves it set. -/
theorem foldl_visit_changed (order : List String) (m : Elements) :
    (order.foldl visitElement (m, true)).2 = true := by
  induction order generalizing m with
  | nil => rfl
  | cons n rest ih =>
    rw [List.foldl_cons]
    rcases visitElement_cases m true n with h | ⟨_, _, _, _, h⟩ <;> rw [h] <;> exact ih _

/-- An iteration that ends with `changed` false has left the map as it was, and
the loop body was without effect on that map for every name of the order. -/
theorem tierPass_no_progress (order : List String) (m : Elements)
    (h : (tierPass order m).2 = false) :
    (tierPass order m).1 = m ∧ ∀ n ∈ order, visitElement (m, false) n = (m, false) := by
  unfold tierPass at h ⊢
  induction order with
  | nil => simp
  | cons n rest ih =>
    rw [List.foldl_cons] at h ⊢
    rcases visitElement_cases m false n with hc | ⟨_, _, _, _, hc⟩
    · rw [hc] at h ⊢
      obtain ⟨h1, h2⟩ := ih h
      refine ⟨h1, ?_⟩
      intro n' hn'
      rcases List.mem_cons.mp hn' with rfl | hn'
      · exact hc
      · exact h2 n' hn'
    · rw [hc, foldl_visit_changed] at h
      exact absurd h (by simp)

/-- When the outer loop ends with `changed` false, a further iteration in the
order of the last one would leave the final map as it is. -/
theorem tierLoop_stop (orders : Nat → List String) (k it : Nat) (m : Elements)
    (h : (tierLoop orders k it m).changed = false) :
    ∃ j, tierPass (orders j) (tierLoop orders k it m).elements =
      ((tierLoop orders k it m).elements, false) := by
  induction k generalizing it m with
  | zero => simp [tierLoop] at h
  | succ k ih =>
    rw [tierLoop] at h ⊢
    by_cases hc : (tierPass (orders (it + 1)) m).2 = true
    · simp only [hc, if_true] at h ⊢
      exact ih (it + 1) _ h
    · simp only [hc, if_false, Bool.false_eq_true] at h ⊢
      have hc' : (tierPass (orders (it + 1)) m).2 = false := by
        simpa using hc
      have hm := (tierPass_no_progress (orders (it + 1)) m hc').1
      refine ⟨it + 1, ?_⟩
      rw [hm]
      exact Prod.ext hm hc'

/-- In a map that an iteration leaves as it is, an unvisited key of the order
has no recipe with at least one ingredient and all ingredients visited. -/
theorem fixpoint_no_resolvable (order : List String) (m : Elements)
    (hfix : tierPass order m = (m, false))
    (htier : ∀ n e, m.get? n = some e → e.visited = true → 1 ≤ e.Tier)
    (n : String) (hn : n ∈ order) (e : Element) (hget : m.get? n = some e)
    (hv : e.visited = false) :
    ∀ r ∈ e.Recipes, r.Ingredients ≠ [] → ¬ Resolvable m r := by
  intro r hr hne hres
  have hnp := (tierPass_no_progress order m (by rw [hfix])).2 n hn
  have hpos := (recipeTierOf_attained m r htier hres hne).1
  have hcan := scanRecipes_of_resolvable m e.Recipes r hr hres (by omega)
  rw [visitElement_resolve m false n e hget hv hcan] at hnp
  exact absurd (congrArg Prod.snd hnp) (by simp)

/-! ## Forward propagation -/

theorem Derivable.isKey {g : Elements} {n : String} (h : Derivable g n) :
    ∃ e, g.get? n = some e := by
  cases h with
  | base n e hg _ => exact ⟨e, hg⟩
  | step n e r hg _ _ _ => exact ⟨e, hg⟩

/-- The loop body keeps "every visited key is derivable". -/
theorem derivable_step (g : Elements) (hf : Fresh g) (m : Elements) (c : Bool) (n' : String)
    (h : Evolves (initBase g) m ∧
      ∀ n e, m.get? n = some e → e.visited = true → Derivable g n) :
    Evolves (initBase g) (visitElement (m, c) n').1 ∧
      ∀ n e, (visitElement (m, c) n').1.get? n = some e → e.visited = true →
        Derivable g n := by
  obtain ⟨hev, hinv⟩ := h
  refine ⟨hev.trans (visitElement_evolves m c n'), ?_⟩
  rcases visitElement_cases m c n' with hc | ⟨elem, hget, hv, hcan, hc⟩
  · rw [hc]; exact hinv
  · rw [hc]
    intro n e hge hve
    by_cases hne : n' = n
    · subst hne
      obtain ⟨hg, _⟩ := reached_unvisited g m hf hev n' elem hget hv
      obtain ⟨hpos, _, r, hr, hres, hrt⟩ := scanRecipes_true m elem.Recipes hcan
      have hnil : r.Ingredients ≠ [] := by
        intro hnil
        have : recipeTierOf m r = 0 := by simp [recipeTierOf, hnil, scanIngredients]
        omega
      refine Derivable.step n' elem r hg hr hnil ?_
      intro i hi
      obtain ⟨ei, hgi, hvi⟩ := hres i hi
      exact hinv i ei hgi hvi
    · rw [get?_set_ne m _ hne] at hge
      exact hinv n e hge hve

/-- Every key the loop has visited is derivable. -/
theorem visited_derivable (orders : Nat → List String) (g : Elements) (hf : Fresh g)
    (k it : Nat) (n : String) (e : Element)
    (hget : (tierLoop orders k it (initBase g)).elements.get? n = some e)
    (hv : e.visited = true) : Derivable g n := by
  have hinit : ∀ n e, (initBase g).get? n = some e → e.visited = true → Derivable g n := by
    intro n e hge hve
    rcases initBase_fresh g hf n e hge with ⟨h1, _, _⟩ | ⟨_, h2, _⟩
    · rw [get?_initBase] at hge
      cases hg : g.get? n with
      | none => simp [hg] at hge
      | some e₀ =>
        simp only [hg, Option.map_some', Option.some.injEq] at hge
        have hrec : e.Recipes = e₀.Recipes := by
          rw [← hge]; unfold initRecord; split <;> rfl
        exact Derivable.base n e₀ hg (hrec ▸ h1)
    · rw [hve] at h2; exact absurd h2 (by simp)
  exact (tierLoop_preserves
    (fun m => Evolves (initBase g) m ∧
      ∀ n e, m.get? n = some e → e.visited = true → Derivable g n)
    (fun m c n h => derivable_step g hf m c n h) orders k it (initBase g)
    ⟨Evolves.refl _, hinit⟩).2 n e hget hv

/-- In a reached map that an iteration over all keys leaves as it is, every
derivable key is visited. -/
theorem derivable_visited (g m : Elements) (hf : Fresh g) (hev : Evolves (initBase g) m)
    (order : List String) (hord : ∀ n ∈ g.keys, n ∈ order)
    (hfix : tierPass order m = (m, false)) (n : String) (hd : Derivable g n) :
    ∃ e, m.get? n = some e ∧ e.visited = true := by
  induction hd with
  | base n e hg hr =>
    have hinit : (initBase g).get? n = some { e with Tier := 1, visited := true } := by
      rw [get?_initBase, hg]
      simp [initRecord, hr]
    exact ⟨_, hev.frozen hinit rfl, rfl⟩
  | step n e r hg hr hne _ ih =>
    have hrec : e.Recipes ≠ [] := List.ne_nil_of_mem hr
    obtain ⟨e', hk', hs⟩ := reached_of_input g m hev n e hg hrec
    cases hv : e'.visited with
    | true => exact ⟨e', hk', hv⟩
    | false =>
      exfalso
      have hres : Resolvable m r := ih
      have hrec' : e'.Recipes = e.Recipes := hs.recipes
      have hn : n ∈ order := hord n ((get?_isSome_iff g n).mp ⟨e, hg⟩)
      exact fixpoint_no_resolvable order m hfix (reached_tier_pos g m hf hev) n hn e' hk' hv
        r (hrec' ▸ hr) hne hres

/-- Claim C10 (fixed point at early stop).  When the loop on a fresh map ends
with `changed` false, no unvisited record of the final map has a recipe with at
least one ingredient whose ingredients are all visited keys; and a key is left
unvisited, hence to the fallback pass, exactly when it is not derivable from the
base elements by forward propagation. -/
theorem fixed_point_at_early_stop (orders : Nat → List String) (g : Elements)
    (hf : Fresh g) (hord : ValidOrders g orders)
    (hstop : (runLoop orders g).changed = false) :
    (∀ n e, (runLoop orders g).elements.get? n = some e → e.visited = false →
      ∀ r ∈ e.Recipes, r.Ingredients ≠ [] → ¬ Resolvable (runLoop orders g).elements r) ∧
    (∀ n e, (runLoop orders g).elements.get? n = some e →
      (e.visited = false ↔ ¬ Derivable g n)) := by
  have hev := runLoop_evolves orders g
  obtain ⟨j, hfix⟩ := tierLoop_stop orders maxIterations 0 (initBase g) hstop
  have hmem : ∀ n ∈ g.keys, n ∈ orders j := fun n hn => (hord j).mem_iff.mpr hn
  constructor
  · intro n e hget hv
    have hn : n ∈ orders j := by
      obtain ⟨hg, _⟩ := reached_unvisited g _ hf hev n e hget hv
      exact hmem n ((get?_isSome_iff g n).mp ⟨e, hg⟩)
    exact fixpoint_no_resolvable (orders j) _ hfix (reached_tier_pos g _ hf hev) n hn e hget hv
  · intro n e hget
    constructor
    · intro hv hd
      obtain ⟨e', hget', hv'⟩ := derivable_visited g _ hf hev (orders j) hmem hfix n hd
      have hget'' : (runLoop orders g).elements.get? n = some e' := hget'
      rw [hget] at hget''
      cases hget''
      rw [hv] at hv'
      exact absurd hv' (by simp)
    · intro hnd
      cases hv : e.visited with
      | false => rfl
      | true =>
        exact absurd (visited_derivable orders g hf maxIterations 0 n e hget hv) hnd

theorem fixed_point_at_early_stop_witness :
    Fresh cycleGraph ∧ ValidOrders cycleGraph (fun _ => ["X", "B", "A"]) ∧
    (runLoop (fun _ => ["X", "B", "A"]) cycleGraph).changed = false ∧
    ((∀ n e, (runLoop (fun _ => ["X", "B", "A"]) cycleGraph).elements.get? n = some e →
        e.visited = false →
        ∀ r ∈ e.Recipes, r.Ingredients ≠ [] →
          ¬ Resolvable (runLoop (fun _ => ["X", "B", "A"]) cycleGraph).elements r) ∧
      (∀ n e, (runLoop (fun _ => ["X", "B", "A"]) cycleGraph).elements.get? n = some e →
        (e.visited = false ↔ ¬ Derivable cycleGraph n))) :=
  have hord : ValidOrders cycleGraph (fun _ => ["X", "B", "A"]) :=
    fun _ => (by decide : (["X", "B", "A"] : List String).Perm cycleGraph.keys)
  ⟨fresh_of_entries cycleGraph (by decide), hord, by decide,
    fixed_point_at_early_stop (fun _ => ["X", "B", "A"]) cycleGraph
      (fresh_of_entries cycleGraph (by decide)) hord (by decide)⟩

/-! ## Convergence on acyclic graphs -/

/-- The inner loop from any state only makes admissible changes. -/
theorem foldl_visit_evolves (order : List String) (st : Elements × Bool) :
    Evolves st.1 (order.foldl visitElement st).1 := by
  induction order generalizing st with
  | nil => exact Evolves.refl _
  | cons n rest ih =>
    rw [List.foldl_cons]
    exact (visitElement_evolves st.1 st.2 n).trans (ih _)

/-- An iteration whose order contains `n` runs the loop body for `n` in some
state `m₁` reached from the start of the iteration, and the end of the iteration
is reached from the outcome. -/
theorem tierPass_visit (order : List String) (m : Elements) (n : String) (hn : n ∈ order) :
    ∃ m₁ c₁, Evolves m m₁ ∧
      Evolves (visitElement (m₁, c₁) n).1 (tierPass order m).1 := by
  obtain ⟨pre, post, rfl⟩ := List.append_of_mem hn
  refine ⟨(pre.foldl visitElement (m, false)).1, (pre.foldl visitElement (m, false)).2,
    foldl_visit_evolves pre (m, false), ?_⟩
  unfold tierPass
  rw [List.foldl_append, List.foldl_cons]
  exact foldl_visit_evolves post _

/-- The loop body in a reached state marks the element visited when one of its
recipes has at least one ingredient and only visited ingredients. -/
theorem visitElement_marks (m : Elements) (c : Bool) (n : String) (e : Element)
    (htier : ∀ n e, m.get? n = some e → e.visited = true → 1 ≤ e.Tier)
    (hget : m.get? n = some e) (r : ElementRecipe) (hr : r ∈ e.Recipes)
    (hne : r.Ingredients ≠ []) (hres : Resolvable m r) :
    ∃ e', (visitElement (m, c) n).1.get? n = some e' ∧ e'.visited = true := by
  cases hv : e.visited with
  | true =>
    rw [visitElement_visited m c n e hget hv]
    exact ⟨e, hget, hv⟩
  | false =>
    have hpos := (recipeTierOf_attained m r htier hres hne).1
    have hcan := scanRecipes_of_resolvable m e.Recipes r hr hres (by omega)
    rw [visitElement_resolve m c n e hget hv hcan]
    exact ⟨_, get?_set_self _ _ _, rfl⟩

/-- An iteration over a map whose records are all visited changes nothing. -/
theorem tierPass_all_visited (order : List String) (m : Elements)
    (h : ∀ n e, m.get? n = some e → e.visited = true) :
    tierPass order m = (m, false) := by
  unfold tierPass
  induction order with
  | nil => rfl
  | cons n rest ih =>
    rw [List.foldl_cons]
    cases hg : m.get? n with
    | none => rw [visitElement_absent m false n hg]; exact ih
    | some e => rw [visitElement_visited m false n e hg (h n e hg)]; exact ih

/-- One iteration resolves the next layer: if every key of depth at most `j` is
visited before, every key of depth at most `j + 1` is visited after. -/
theorem tierPass_layer (g : Elements) (hf : Fresh g) (depth : String → Nat)
    (hne : ∀ n e, g.get? n = some e → ∀ r ∈ e.Recipes, r.Ingredients ≠ [])
    (hkeys : ∀ n e, g.get? n = some e → ∀ r ∈ e.Recipes, ∀ i ∈ r.Ingredients, i ∈ g.keys)
    (hdepth : ∀ n e, g.get? n = some e →
      ∀ r ∈ e.Recipes, ∀ i ∈ r.Ingredients, depth i < depth n)
    (order : List String) (hord : ∀ n ∈ g.keys, n ∈ order)
    (m : Elements) (hev : Evolves (initBase g) m) (j : Nat)
    (hinv : ∀ n e, m.get? n = some e → depth n ≤ j → e.visited = true) :
    ∀ n e, (tierPass order m).1.get? n = some e → depth n ≤ j + 1 → e.visited = true := by
  intro n e' hget' hdn
  have hev' : Evolves (initBase g) (tierPass order m).1 := hev.trans (tierPass_evolves order m)
  cases hv' : e'.visited with
  | true => rfl
  | false =>
    exfalso
    obtain ⟨hg, hrec⟩ := reached_unvisited g _ hf hev' n e' hget' hv'
    have hn : n ∈ order := hord n ((get?_isSome_iff g n).mp ⟨e', hg⟩)
    obtain ⟨m₁, c₁, hev₁, hev₂⟩ := tierPass_visit order m n hn
    have hev₁' : Evolves (initBase g) m₁ := hev.trans hev₁
    obtain ⟨r, hr⟩ := List.exists_mem_of_ne_nil _ hrec
    obtain ⟨e₁, hget₁, hs₁⟩ := reached_of_input g m₁ hev₁' n e' hg hrec
    have hres : Resolvable m₁ r := by
      intro i hi
      have hik : i ∈ g.keys := hkeys n e' hg r hr i hi
      have hid : depth i < depth n := hdepth n e' hg r hr i hi
      obtain ⟨ei₀, hgi₀⟩ := (get?_isSome_iff g i).mpr hik
      have hmi : ∃ ei, m.get? i = some ei := by
        cases hmi : m.get? i with
        | none =>
          have := (hev.get?_none).mp hmi
          rw [get?_initBase, hgi₀] at this
          exact absurd this (by simp)
        | some ei => exact ⟨ei, rfl⟩
      obtain ⟨ei, hgi⟩ := hmi
      have hvi := hinv i ei hgi (by omega)
      exact ⟨ei, hev₁.frozen hgi hvi, hvi⟩
    obtain ⟨e₂, hget₂, hv₂⟩ := visitElement_marks m₁ c₁ n e₁
      (reached_tier_pos g m₁ hf hev₁') hget₁ r (hs₁.recipes ▸ hr) (hne n e' hg r hr) hres
    have := hev₂.frozen hget₂ hv₂
    rw [hget'] at this
    cases this
    rw [hv'] at hv₂
    exact absurd hv₂ (by simp)

/-- The outer loop, entered with `iteration = it` in a state where every key of
depth at most `it` is visited, ends after at most `d + 1` iterations with every
key visited, when no depth exceeds `d` and the cap leaves room for `d + 1`
iterations. -/
theorem tierLoop_converges (g : Elements) (hf : Fresh g) (depth : String → Nat) (d : Nat)
    (hne : ∀ n e, g.get? n = some e → ∀ r ∈ e.Recipes, r.Ingredients ≠ [])
    (hkeys : ∀ n e, g.get? n = some e → ∀ r ∈ e.Recipes, ∀ i ∈ r.Ingredients, i ∈ g.keys)
    (hdepth : ∀ n e, g.get? n = some e →
      ∀ r ∈ e.Recipes, ∀ i ∈ r.Ingredients, depth i < depth n)
    (hd : ∀ n ∈ g.keys, depth n ≤ d)
    (orders : Nat → List String) (hord : ∀ k, ∀ n ∈ g.keys, n ∈ orders k)
    (k it : Nat) (m : Elements) (hev : Evolves (initBase g) m)
    (hinv : ∀ n e, m.get? n = some e → depth n ≤ it → e.visited = true)
    (hit : it ≤ d) (hfuel : d < it + k) :
    (tierLoop orders k it m).iteration ≤ d + 1 ∧
    (tierLoop orders k it m).changed = false ∧
    ∀ n e, (tierLoop orders k it m).elements.get? n = some e → e.visited = true := by
  induction k generalizing it m with
  | zero => omega
  | succ k ih =>
    have hlayer := tierPass_layer g hf depth hne hkeys hdepth (orders (it + 1))
      (hord (it + 1)) m hev it hinv
    have hev' : Evolves (initBase g) (tierPass (orders (it + 1)) m).1 :=
      hev.trans (tierPass_evolves _ m)
    have hkey : ∀ (m' : Elements), Evolves (initBase g) m' → ∀ n e, m'.get? n = some e →
        n ∈ g.keys := by
      intro m' hm' n e hge
      by_contra hnk
      have := reached_absent g m' hm' n ((get?_eq_none_iff g n).mpr hnk)
      rw [hge] at this
      exact absurd this (by simp)
    rw [tierLoop]
    by_cases hc : (tierPass (orders (it + 1)) m).2 = true
    · simp only [hc, if_true]
      by_cases hlt : it + 1 ≤ d
      · exact ih (it + 1) _ hev' hlayer hlt (by omega)
      · exfalso
        have hall : ∀ n e, m.get? n = some e → e.visited = true := by
          intro n e hge
          exact hinv n e hge (by have := hd n (hkey m hev n e hge); omega)
        rw [tierPass_all_visited _ m hall] at hc
        exact absurd hc (by simp)
    · simp only [hc, if_false, Bool.false_eq_true]
      have hc' : (tierPass (orders (it + 1)) m).2 = false := by simpa using hc
      have hm := (tierPass_no_progress (orders (it + 1)) m hc').1
      refine ⟨by omega, trivial, ?_⟩
      rw [hm]
      have hall : ∀ j n e, m.get? n = some e → depth n ≤ it + j → e.visited = true := by
        intro j
        induction j with
        | zero => exact hinv
        | succ j ihj =>
          have := tierPass_layer g hf depth hne hkeys hdepth (orders (it + 1))
            (hord (it + 1)) m hev (it + j) ihj
          rw [hm] at this
          exact this
      intro n e hge
      exact hall (depth n) n e hge (by omega)

/-- Claim C8 (convergence bound).  Let the fresh map be acyclic with dependency
depth at most `d < 100`: every recipe has an ingredient, every ingredient is a
key, and `depth` assigns every key with recipes a number above the depth of each
of its ingredients and no key a number above `d`.  Then, for all visiting
orders, the loop ends after at most `d + 1` iterations, on an iteration without
progress, and every key is visited, so that the fallback pass has nothing to
do. -/
theorem convergence_bound (orders : Nat → List String) (g : Elements) (hf : Fresh g)
    (hord : ValidOrders g orders) (depth : String → Nat) (d : Nat)
    (hne : ∀ n e, g.get? n = some e → ∀ r ∈ e.Recipes, r.Ingredients ≠ [])
    (hkeys : ∀ n e, g.get? n = some e → ∀ r ∈ e.Recipes, ∀ i ∈ r.Ingredients, i ∈ g.keys)
    (hdepth : ∀ n e, g.get? n = some e →
      ∀ r ∈ e.Recipes, ∀ i ∈ r.Ingredients, depth i < depth n)
    (hd : ∀ n ∈ g.keys, depth n ≤ d) (hcap : d < 100) :
    (runLoop orders g).iteration ≤ d + 1 ∧
    (runLoop orders g).changed = false ∧
    (∀ n e, (runLoop orders g).elements.get? n = some e → e.visited = true) := by
  have hinit : ∀ n e, (initBase g).get? n = some e → depth n ≤ 0 → e.visited = true := by
    intro n e hge hd0
    rcases initBase_fresh g hf n e hge with ⟨_, h2, _⟩ | ⟨h1, _, h3⟩
    · exact h2
    · exfalso
      obtain ⟨r, hr⟩ := List.exists_mem_of_ne_nil _ h1
      obtain ⟨i, hi⟩ := List.exists_mem_of_ne_nil _ (hne n e h3 r hr)
      have := hdepth n e h3 r hr i hi
      omega
  have hconv : (runLoop orders g).iteration ≤ d + 1 ∧
      (runLoop orders g).changed = false ∧
      ∀ n e, (runLoop orders g).elements.get? n = some e → e.visited = true :=
    tierLoop_converges g hf depth d hne hkeys hdepth hd orders
    (fun k n hn => (hord k).mem_iff.mpr hn) maxIterations 0 (initBase g) (Evolves.refl _)
    hinit (Nat.zero_le d) (by unfold maxIterations; omega)
  exact hconv

theorem convergence_bound_witness :
    Fresh diamond ∧ ValidOrders diamond (fun _ => ["Target", "C", "B", "A"]) ∧
    (∀ n e, diamond.get? n = some e → ∀ r ∈ e.Recipes, r.Ingredients ≠ []) ∧
    (∀ n e, diamond.get? n = some e →
      ∀ r ∈ e.Recipes, ∀ i ∈ r.Ingredients, i ∈ diamond.keys) ∧
    (∀ n e, diamond.get? n = some e →
      ∀ r ∈ e.Recipes, ∀ i ∈ r.Ingredients, diamondDepth i < diamondDepth n) ∧
    (∀ n ∈ diamond.keys, diamondDepth n ≤ 2) ∧ 2 < 100 ∧
    ((runLoop (fun _ => ["Target", "C", "B", "A"]) diamond).iteration ≤ 2 + 1 ∧
      (runLoop (fun _ => ["Target", "C", "B", "A"]) diamond).changed = false ∧
      (∀ n e, (runLoop (fun _ => ["Target", "C", "B", "A"]) diamond).elements.get? n = some e →
        e.visited = true)) :=
  have hord : ValidOrders diamond (fun _ => ["Target", "C", "B", "A"]) :=
    fun _ => (by decide : (["Target", "C", "B", "A"] : List String).Perm diamond.keys)
  have hne : ∀ n e, diamond.get? n = some e → ∀ r ∈ e.Recipes, r.Ingredients ≠ [] :=
    forall_get?_of_entries diamond (fun _ e => ∀ r ∈ e.Recipes, r.Ingredients ≠ [])
      (by decide)
  have hkeys : ∀ n e, diamond.get? n = some e →
      ∀ r ∈ e.Recipes, ∀ i ∈ r.Ingredients, i ∈ diamond.keys :=
    forall_get?_of_entries diamond
      (fun _ e => ∀ r ∈ e.Recipes, ∀ i ∈ r.Ingredients, i ∈ diamond.keys) (by decide)
  have hdepth : ∀ n e, diamond.get? n = some e →
      ∀ r ∈ e.Recipes, ∀ i ∈ r.Ingredients, diamondDepth i < diamondDepth n :=
    forall_get?_of_entries diamond
      (fun n e => ∀ r ∈ e.Recipes, ∀ i ∈ r.Ingredients, diamondDepth i < diamondDepth n)
      (by decide)
  ⟨fresh_of_entries diamond (by decide), hord, hne, hkeys, hdepth, by decide, by decide,
    convergence_bound (fun _ => ["Target", "C", "B", "A"]) diamond
      (fresh_of_entries diamond (by decide)) hord diamondDepth 2 hne hkeys hdepth
      (by decide) (by decide)⟩

/-! ## The first iteration -/

/-- The map at the end of the loop is reached from the map at the end of the
first iteration. -/
theorem runLoop_after_first (orders : Nat → List String) (g : Elements) :
    Evolves (tierPass (orders 1) (initBase g)).1 (runLoop orders g).elements := by
  show Evolves _ (tierLoop orders (99 + 1) 0 (initBase g)).elements
  rw [tierLoop]
  by_cases hc : (tierPass (orders (0 + 1)) (initBase g)).2 = true
  · simp only [hc, if_true]
    exact tierLoop_evolves orders 99 (0 + 1) _
  · simp only [hc, if_false, Bool.false_eq_true]
    exact Evolves.refl _

/-- The inner loop over names that are base keys or no keys at all, run on the
map the base initialisation leaves, changes nothing. -/
theorem foldl_visit_base (g : Elements) (pre : List String) (c : Bool)
    (hpre : ∀ p ∈ pre, ∀ ep, g.get? p = some ep → ep.Recipes = []) :
    pre.foldl visitElement (initBase g, c) = (initBase g, c) := by
  induction pre with
  | nil => rfl
  | cons p rest ih =>
    rw [List.foldl_cons]
    have hstep : visitElement (initBase g, c) p = (initBase g, c) := by
      cases hg : g.get? p with
      | none =>
        apply visitElement_absent
        rw [get?_initBase, hg]; rfl
      | some ep =>
        have hr := hpre p (List.mem_cons_self _ _) ep hg
        apply visitElement_visited _ _ _ { ep with Tier := 1, visited := true }
        · rw [get?_initBase, hg]
          simp [initRecord, hr]
        · rfl
    rw [hstep]
    exact ih (fun q hq => hpre q (List.mem_cons_of_mem _ hq))

/-- The claim C7 as stated fails: in `chainGraph` the key `Target` has the
recipe `A + B` of base elements, and with `D` and `C` visited before it in the
first iteration it finishes with tier 4. -/
theorem earliest_recipe_not_tier_two :
    (⟨["A", "B"]⟩ : ElementRecipe) ∈ (mkElem "Target" [["A", "B"], ["C", "C"]]).Recipes ∧
    chainGraph.get? "Target" = some (mkElem "Target" [["A", "B"], ["C", "C"]]) ∧
    chainGraph.get? "A" = some (baseElem "A") ∧
    chainGraph.get? "B" = some (baseElem "B") ∧
    (["D", "C", "Target", "A", "B"] : List String).Perm chainGraph.keys ∧
    tierOf (resolveTiers (fun _ => ["D", "C", "Target", "A", "B"]) chainGraph) "Target" =
      some 4 := by
  decide

/-- Claim C7, amended.  A key of a fresh map that has a recipe with at least one
ingredient, all of whose ingredients are recipe-less keys, is marked visited in
the first iteration with some tier `t ≥ 2` and holds the same record, with that
tier, when the tier calculation is over, whatever its other recipes are.  The
tier is 2 when every name visited before it in the first iteration is a
recipe-less key (or no key). -/
theorem earliest_recipe (orders : Nat → List String) (g : Elements) (hf : Fresh g)
    (name : String) (e : Element) (hget : g.get? name = some e)
    (r : ElementRecipe) (hr : r ∈ e.Recipes) (hne : r.Ingredients ≠ [])
    (hbase : ∀ i ∈ r.Ingredients, ∃ ei, g.get? i = some ei ∧ ei.Recipes = [])
    (hin : name ∈ orders 1) :
    ∃ t : Int, 2 ≤ t ∧
      (tierPass (orders 1) (initBase g)).1.get? name =
        some { e with Tier := t, visited := true } ∧
      (resolveTiers orders g).get? name = some { e with Tier := t, visited := true } ∧
      (∀ pre post, orders 1 = pre ++ name :: post →
        (∀ p ∈ pre, ∀ ep, g.get? p = some ep → ep.Recipes = []) → t = 2) := by
  have hrec : e.Recipes ≠ [] := List.ne_nil_of_mem hr
  have hres₀ : Resolvable (initBase g) r := by
    intro i hi
    obtain ⟨ei, hgi, hri⟩ := hbase i hi
    refine ⟨{ ei with Tier := 1, visited := true }, ?_, rfl⟩
    rw [get?_initBase, hgi]
    simp [initRecord, hri]
  obtain ⟨m₁, c₁, hev₁, hev₂⟩ := tierPass_visit (orders 1) (initBase g) name hin
  obtain ⟨e₁, hget₁, hs₁⟩ := reached_of_input g m₁ hev₁ name e hget hrec
  obtain ⟨e₂, hget₂, hv₂⟩ := visitElement_marks m₁ c₁ name e₁
    (reached_tier_pos g m₁ hf hev₁) hget₁ r (hs₁.recipes ▸ hr) hne (hev₁.resolvable hres₀)
  have hpass := hev₂.frozen hget₂ hv₂
  obtain ⟨e', hget', hs'⟩ := reached_of_input g _ (tierPass_evolves (orders 1) (initBase g))
    name e hget hrec
  rw [hpass] at hget'
  cases hget'
  have hshape : ∃ t : Int, 2 ≤ t ∧ e₂ = { e with Tier := t, visited := true } := by
    rcases hs' with rfl | ⟨_, _, t, ht, h⟩
    · rw [hf name e₂ hget] at hv₂
      exact absurd hv₂ (by simp)
    · exact ⟨t, ht, h⟩
  obtain ⟨t, ht, rfl⟩ := hshape
  refine ⟨t, ht, hpass, ?_, ?_⟩
  · have hfinal := (runLoop_after_first orders g).frozen hpass rfl
    unfold resolveTiers
    rw [get?_fallback, hfinal]
    simp [fallbackRecord]
  · intro pre post hsplit hpre
    have hinit : (initBase g).get? name = some e := by
      rw [get?_initBase, hget]
      have : ¬ e.Recipes.length = 0 := fun h => hrec (List.length_eq_zero.mp h)
      simp [initRecord, this]
    have hcan := scanRecipes_of_resolvable (initBase g) e.Recipes r hr hres₀
      (by have := (recipeTierOf_attained (initBase g) r
            (reached_tier_pos g _ hf (Evolves.refl _)) hres₀ hne).1; omega)
    obtain ⟨hpos, _, r', hr', hres', hrt'⟩ := scanRecipes_true (initBase g) e.Recipes hcan
    have hne' : r'.Ingredients ≠ [] := by
      intro hnil
      have : recipeTierOf (initBase g) r' = 0 := by
        simp [recipeTierOf, hnil, scanIngredients]
      omega
    obtain ⟨_, i, hi, hti⟩ := recipeTierOf_attained (initBase g) r'
      (reached_tier_pos g _ hf (Evolves.refl _)) hres' hne'
    obtain ⟨ei, hgi, hvi⟩ := hres' i hi
    have htier1 : ei.Tier = 1 := by
      rcases initBase_fresh g hf i ei hgi with ⟨_, _, h⟩ | ⟨_, h, _⟩
      · exact h
      · rw [hvi] at h; exact absurd h (by simp)
    have hmax : (scanRecipes (initBase g) e.Recipes false 0).2 = 1 := by
      rw [← hrt', ← hti]
      simp [tierAt, hgi, htier1]
    have hrun : (tierPass (orders 1) (initBase g)).1.get? name =
        some { e with Tier := 2, visited := true } := by
      have hpassEq : tierPass (orders 1) (initBase g) =
          post.foldl visitElement (visitElement (initBase g, false) name) := by
        unfold tierPass
        rw [hsplit, List.foldl_append, List.foldl_cons, foldl_visit_base g pre false hpre]
      rw [hpassEq]
      refine (foldl_visit_evolves post _).frozen ?_ rfl
      rw [visitElement_resolve (initBase g) false name e hinit (hf name e hget) hcan, hmax]
      exact get?_set_self _ _ _
    rw [hpass] at hrun
    have := congrArg Element.Tier (Option.some.inj hrun)
    exact this

theorem earliest_recipe_witness :
    Fresh diamond ∧
    diamond.get? "Target" = some (mkElem "Target" [["A", "B"], ["C", "A"]]) ∧
    (⟨["A", "B"]⟩ : ElementRecipe) ∈ (mkElem "Target" [["A", "B"], ["C", "A"]]).Recipes ∧
    (⟨["A", "B"]⟩ : ElementRecipe).Ingredients ≠ [] ∧
    (∀ i ∈ (⟨["A", "B"]⟩ : ElementRecipe).Ingredients,
      ∃ ei, diamond.get? i = some ei ∧ ei.Recipes = []) ∧
    "Target" ∈ (["C", "Target", "A", "B"] : List String) ∧
    ∃ t : Int, 2 ≤ t ∧
      (tierPass ["C", "Target", "A", "B"] (initBase diamond)).1.get? "Target" =
        some { mkElem "Target" [["A", "B"], ["C", "A"]] with Tier := t, visited := true } ∧
      (resolveTiers (fun _ => ["C", "Target", "A", "B"]) diamond).get? "Target" =
        some { mkElem "Target" [["A", "B"], ["C", "A"]] with Tier := t, visited := true } ∧
      (∀ pre post, ["C", "Target", "A", "B"] = pre ++ "Target" :: post →
        (∀ p ∈ pre, ∀ ep, diamond.get? p = some ep → ep.Recipes = []) → t = 2) :=
  have hbase : ∀ i ∈ (⟨["A", "B"]⟩ : ElementRecipe).Ingredients,
      ∃ ei, diamond.get? i = some ei ∧ ei.Recipes = [] := by
    intro i hi
    simp only [List.mem_cons, List.mem_singleton, List.not_mem_nil, or_false] at hi
    rcases hi with rfl | rfl
    · exact ⟨baseElem "A", by decide, rfl⟩
    · exact ⟨baseElem "B", by decide, rfl⟩
  ⟨fresh_of_entries diamond (by decide), by decide, by decide, by decide, hbase, by decide,
    earliest_recipe (fun _ => ["C", "Target", "A", "B"]) diamond
      (fresh_of_entries diamond (by decide)) "Target"
      (mkElem "Target" [["A", "B"], ["C", "A"]]) (by decide) ⟨["A", "B"]⟩ (by decide)
      (by decide) hbase (by decide)⟩

/-! ## Dependence on the visiting order -/

/-- The ingredient loop only looks at the records of the ingredients. -/
theorem scanIngredients_congr (m m' : Elements) (ings : List String) (t : Int)
    (h : ∀ i ∈ ings, m.get? i = m'.get? i) :
    scanIngredients m ings t = scanIngredients m' ings t := by
  induction ings generalizing t with
  | nil => simp [scanIngredients]
  | cons i rest ih =>
    have hi := h i (List.mem_cons_self _ _)
    have hrest : ∀ j ∈ rest, m.get? j = m'.get? j :=
      fun j hj => h j (List.mem_cons_of_mem _ hj)
    rw [scanIngredients, scanIngredients, ← hi]
    cases m.get? i with
    | none => rfl
    | some e => simp only [ih _ hrest]

/-- The tier of a resolvable recipe does not change any more. -/
theorem recipeTierOf_evolves {m m' : Elements} (h : Evolves m m') {r : ElementRecipe}
    (hr : Resolvable m r) : recipeTierOf m' r = recipeTierOf m r := by
  unfold recipeTierOf
  rw [scanIngredients_congr m' m r.Ingredients 0]
  intro i hi
  obtain ⟨e, hg, hv⟩ := hr i hi
  rw [hg, h.frozen hg hv]

/-- The loop body keeps "a visited record with the single recipe `r` has tier
`recipeTier r + 1`, and `r` is resolvable". -/
theorem single_recipe_step (g : Elements) (m : Elements) (c : Bool) (n' : String)
    (h : Evolves (initBase g) m ∧
      ∀ n e r, m.get? n = some e → e.visited = true → e.Recipes = [r] →
        Resolvable m r ∧ e.Tier = recipeTierOf m r + 1) :
    Evolves (initBase g) (visitElement (m, c) n').1 ∧
      ∀ n e r, (visitElement (m, c) n').1.get? n = some e → e.visited = true →
        e.Recipes = [r] →
        Resolvable (visitElement (m, c) n').1 r ∧
          e.Tier = recipeTierOf (visitElement (m, c) n').1 r + 1 := by
  obtain ⟨hev, hinv⟩ := h
  have hstep := visitElement_evolves m c n'
  refine ⟨hev.trans hstep, ?_⟩
  rcases visitElement_cases m c n' with hc | ⟨elem, hget, hv, hcan, hc⟩
  · rw [hc]; exact hinv
  · intro n e r hge hve hre
    have key : Resolvable m r ∧ e.Tier = recipeTierOf m r + 1 := by
      rw [hc] at hge
      by_cases hne : n' = n
      · subst hne
        rw [get?_set_self] at hge
        cases hge
        obtain ⟨_, _, r', hr', hres', hrt'⟩ := scanRecipes_true m elem.Recipes hcan
        have hrr : r' = r := by
          have hre' : elem.Recipes = [r] := hre
          rw [hre'] at hr'
          simpa using hr'
        subst hrr
        exact ⟨hres', by simp [hrt']⟩
      · rw [get?_set_ne m _ hne] at hge
        exact hinv n e r hge hve hre
    exact ⟨hstep.resolvable key.1, by rw [recipeTierOf_evolves hstep key.1]; exact key.2⟩

/-- At the end of the loop on a fresh map, a visited record with the single
recipe `r` has tier `recipeTier r + 1`. -/
theorem single_recipe_tier (orders : Nat → List String) (g : Elements) (hf : Fresh g)
    (n : String) (e : Element) (r : ElementRecipe)
    (hget : (runLoop orders g).elements.get? n = some e) (hv : e.visited = true)
    (hr : e.Recipes = [r]) :
    e.Tier = recipeTierOf (runLoop orders g).elements r + 1 := by
  have hinit : ∀ n e r, (initBase g).get? n = some e → e.visited = true → e.Recipes = [r] →
      Resolvable (initBase g) r ∧ e.Tier = recipeTierOf (initBase g) r + 1 := by
    intro n e r hge hve hre
    rcases initBase_fresh g hf n e hge with ⟨h1, _, _⟩ | ⟨_, h2, _⟩
    · rw [hre] at h1; exact absurd h1 (by simp)
    · rw [hve] at h2; exact absurd h2 (by simp)
  exact ((tierLoop_preserves
    (fun m => Evolves (initBase g) m ∧
      ∀ n e r, m.get? n = some e → e.visited = true → e.Recipes = [r] →
        Resolvable m r ∧ e.Tier = recipeTierOf m r + 1)
    (fun m c n h => single_recipe_step g m c n h) orders maxIterations 0 (initBase g)
    ⟨Evolves.refl _, hinit⟩).2 n e r hget hv hr).2

/-- A key of a fresh map that the loop has visited holds its input record with
the flag set and some tier. -/
theorem reached_visited (g m : Elements) (hf : Fresh g) (hev : Evolves (initBase g) m)
    (n : String) (e e' : Element) (hg : g.get? n = some e) (hr : e.Recipes ≠ [])
    (hget : m.get? n = some e') (hv : e'.visited = true) :
    e' = { e with Tier := e'.Tier, visited := true } := by
  obtain ⟨e₁, hget₁, hs⟩ := reached_of_input g m hev n e hg hr
  rw [hget] at hget₁
  cases hget₁
  rcases hs with rfl | ⟨_, _, t, _, rfl⟩
  · rw [hf n e' hg] at hv; exact absurd hv (by simp)
  · rfl

/-- The claim C2 as stated fails: on `diamond` the orders `Target, C, A, B` and
`C, Target, A, B` give `Target` the tiers 2 and 3. -/
theorem order_dependence :
    (["Target", "C", "A", "B"] : List String).Perm diamond.keys ∧
    (["C", "Target", "A", "B"] : List String).Perm diamond.keys ∧
    tierOf (resolveTiers (fun _ => ["Target", "C", "A", "B"]) diamond) "Target" = some 2 ∧
    tierOf (resolveTiers (fun _ => ["C", "Target", "A", "B"]) diamond) "Target" = some 3 := by
  decide

/-- With at most one recipe per key, two runs that both end on an iteration
without progress leave the same record under every derivable key. -/
theorem single_recipe_agree (orders₁ orders₂ : Nat → List String) (g : Elements)
    (hf : Fresh g) (h₁ : ValidOrders g orders₁) (h₂ : ValidOrders g orders₂)
    (hs₁ : (runLoop orders₁ g).changed = false) (hs₂ : (runLoop orders₂ g).changed = false)
    (hsingle : ∀ n e, g.get? n = some e → e.Recipes.length ≤ 1)
    (n : String) (hd : Derivable g n) :
    (runLoop orders₁ g).elements.get? n = (runLoop orders₂ g).elements.get? n := by
  have hev₁ := runLoop_evolves orders₁ g
  have hev₂ := runLoop_evolves orders₂ g
  obtain ⟨j₁, hfix₁⟩ := tierLoop_stop orders₁ maxIterations 0 (initBase g) hs₁
  obtain ⟨j₂, hfix₂⟩ := tierLoop_stop orders₂ maxIterations 0 (initBase g) hs₂
  have hmem₁ : ∀ n ∈ g.keys, n ∈ orders₁ j₁ := fun n hn => (h₁ j₁).mem_iff.mpr hn
  have hmem₂ : ∀ n ∈ g.keys, n ∈ orders₂ j₂ := fun n hn => (h₂ j₂).mem_iff.mpr hn
  induction hd with
  | base n e hg hr =>
    have hinit : (initBase g).get? n = some { e with Tier := 1, visited := true } := by
      rw [get?_initBase, hg]
      simp [initRecord, hr]
    rw [hev₁.frozen hinit rfl, hev₂.frozen hinit rfl]
  | step n e r hg hr hne hing ih =>
    have hrec : e.Recipes ≠ [] := List.ne_nil_of_mem hr
    have hone : e.Recipes = [r] := by
      have hlen := hsingle n e hg
      cases hrs : e.Recipes with
      | nil => rw [hrs] at hrec; exact absurd rfl hrec
      | cons a rest =>
        rw [hrs] at hr hlen
        cases rest with
        | nil =>
          have hra : r = a := by simpa using hr
          rw [hra]
        | cons b rest' => simp at hlen
    have hdn : Derivable g n := Derivable.step n e r hg hr hne hing
    obtain ⟨e₁, hget₁, hv₁⟩ := derivable_visited g _ hf hev₁ (orders₁ j₁) hmem₁ hfix₁ n hdn
    obtain ⟨e₂, hget₂, hv₂⟩ := derivable_visited g _ hf hev₂ (orders₂ j₂) hmem₂ hfix₂ n hdn
    have hget₁' : (runLoop orders₁ g).elements.get? n = some e₁ := hget₁
    have hget₂' : (runLoop orders₂ g).elements.get? n = some e₂ := hget₂
    have hsh₁ := reached_visited g _ hf hev₁ n e e₁ hg hrec hget₁' hv₁
    have hsh₂ := reached_visited g _ hf hev₂ n e e₂ hg hrec hget₂' hv₂
    have hr₁ : e₁.Recipes = [r] := by rw [hsh₁]; exact hone
    have hr₂ : e₂.Recipes = [r] := by rw [hsh₂]; exact hone
    have ht₁ := single_recipe_tier orders₁ g hf n e₁ r hget₁' hv₁ hr₁
    have ht₂ := single_recipe_tier orders₂ g hf n e₂ r hget₂' hv₂ hr₂
    have hrt : recipeTierOf (runLoop orders₁ g).elements r =
        recipeTierOf (runLoop orders₂ g).elements r := by
      unfold recipeTierOf
      rw [scanIngredients_congr _ _ r.Ingredients 0 ih]
    rw [hget₁', hget₂', hsh₁, hsh₂, ht₁, ht₂, hrt]

/-- When the loop on a fresh map ends on an iteration without progress, the
visited keys are the derivable ones. -/
theorem loop_visited_iff (orders : Nat → List String) (g : Elements) (hf : Fresh g)
    (hord : ValidOrders g orders) (hstop : (runLoop orders g).changed = false)
    (n : String) (e : Element) (hget : (runLoop orders g).elements.get? n = some e) :
    e.visited = true ↔ Derivable g n := by
  constructor
  · exact visited_derivable orders g hf maxIterations 0 n e hget
  · intro hd
    obtain ⟨j, hfix⟩ := tierLoop_stop orders maxIterations 0 (initBase g) hstop
    obtain ⟨e', hget', hv'⟩ := derivable_visited g _ hf (runLoop_evolves orders g) (orders j)
      (fun n hn => (hord j).mem_iff.mpr hn) hfix n hd
    have hget'' : (runLoop orders g).elements.get? n = some e' := hget'
    rw [hget] at hget''
    cases hget''
    exact hv'

/-- The loop keeps the key set of the input map. -/
theorem runLoop_get?_none (orders : Nat → List String) (g : Elements) (n : String) :
    (runLoop orders g).elements.get? n = none ↔ g.get? n = none := by
  rw [(runLoop_evolves orders g).get?_none, get?_initBase]
  cases g.get? n <;> simp

/-- Claim C2, amended.  Take two families of visiting orders under both of which
the loop on a fresh map ends on an iteration without progress.  Then the loop
marks the same keys visited under both, and if no key has more than one recipe,
every key holds the same record, hence the same tier, at the end of the two tier
calculations. -/
theorem order_independence (orders₁ orders₂ : Nat → List String) (g : Elements)
    (hf : Fresh g) (h₁ : ValidOrders g orders₁) (h₂ : ValidOrders g orders₂)
    (hs₁ : (runLoop orders₁ g).changed = false) (hs₂ : (runLoop orders₂ g).changed = false) :
    (∀ n, visitedOf (runLoop orders₁ g).elements n =
      visitedOf (runLoop orders₂ g).elements n) ∧
    ((∀ n e, g.get? n = some e → e.Recipes.length ≤ 1) →
      ∀ n, (resolveTiers orders₁ g).get? n = (resolveTiers orders₂ g).get? n) := by
  constructor
  · intro n
    unfold visitedOf
    cases hg₁ : (runLoop orders₁ g).elements.get? n with
    | none =>
      have := (runLoop_get?_none orders₂ g n).mpr ((runLoop_get?_none orders₁ g n).mp hg₁)
      rw [this]
    | some e₁ =>
      cases hg₂ : (runLoop orders₂ g).elements.get? n with
      | none =>
        have := (runLoop_get?_none orders₁ g n).mpr ((runLoop_get?_none orders₂ g n).mp hg₂)
        rw [hg₁] at this
        exact absurd this (by simp)
      | some e₂ =>
        have hi₁ := loop_visited_iff orders₁ g hf h₁ hs₁ n e₁ hg₁
        have hi₂ := loop_visited_iff orders₂ g hf h₂ hs₂ n e₂ hg₂
        have : e₁.visited = e₂.visited := by
          cases hv₁ : e₁.visited with
          | true =>
            exact (hi₂.mpr (hi₁.mp hv₁)).symm
          | false =>
            cases hv₂ : e₂.visited with
            | false => rfl
            | true =>
              have := hi₁.mpr (hi₂.mp hv₂)
              rw [hv₁] at this
              exact absurd this (by simp)
        simp [this]
  · intro hsingle n
    unfold resolveTiers
    rw [get?_fallback, get?_fallback]
    by_cases hd : Derivable g n
    · rw [single_recipe_agree orders₁ orders₂ g hf h₁ h₂ hs₁ hs₂ hsingle n hd]
    · cases hg₁ : (runLoop orders₁ g).elements.get? n with
      | none =>
        rw [(runLoop_get?_none orders₂ g n).mpr ((runLoop_get?_none orders₁ g n).mp hg₁)]
      | some e₁ =>
        cases hg₂ : (runLoop orders₂ g).elements.get? n with
        | none =>
          have := (runLoop_get?_none orders₁ g n).mpr
            ((runLoop_get?_none orders₂ g n).mp hg₂)
          rw [hg₁] at this
          exact absurd this (by simp)
        | some e₂ =>
          have hv₁ : e₁.visited = false := by
            cases hv : e₁.visited with
            | false => rfl
            | true => exact absurd ((loop_visited_iff orders₁ g hf h₁ hs₁ n e₁ hg₁).mp hv) hd
          have hv₂ : e₂.visited = false := by
            cases hv : e₂.visited with
            | false => rfl
            | true => exact absurd ((loop_visited_iff orders₂ g hf h₂ hs₂ n e₂ hg₂).mp hv) hd
          have hi₁ := (reached_unvisited g _ hf (runLoop_evolves orders₁ g) n e₁ hg₁ hv₁).1
          have hi₂ := (reached_unvisited g _ hf (runLoop_evolves orders₂ g) n e₂ hg₂ hv₂).1
          rw [hi₁] at hi₂
          cases hi₂
          rfl

theorem order_independence_witness :
    Fresh steamGraph ∧
    ValidOrders steamGraph (fun _ => ["Cloud", "Steam", "Fire", "Water"]) ∧
    ValidOrders steamGraph (fun _ => ["Water", "Fire", "Steam", "Cloud"]) ∧
    (runLoop (fun _ => ["Cloud", "Steam", "Fire", "Water"]) steamGraph).changed = false ∧
    (runLoop (fun _ => ["Water", "Fire", "Steam", "Cloud"]) steamGraph).changed = false ∧
    ((∀ n, visitedOf (runLoop (fun _ => ["Cloud", "Steam", "Fire", "Water"])
          steamGraph).elements n =
        visitedOf (runLoop (fun _ => ["Water", "Fire", "Steam", "Cloud"])
          steamGraph).elements n) ∧
      ((∀ n e, steamGraph.get? n = some e → e.Recipes.length ≤ 1) →
        ∀ n, (resolveTiers (fun _ => ["Cloud", "Steam", "Fire", "Water"]) steamGraph).get? n =
          (resolveTiers (fun _ => ["Water", "Fire", "Steam", "Cloud"]) steamGraph).get? n)) :=
  have h₁ : ValidOrders steamGraph (fun _ => ["Cloud", "Steam", "Fire", "Water"]) :=
    fun _ => (by decide : (["Cloud", "Steam", "Fire", "Water"] : List String).Perm
      steamGraph.keys)
  have h₂ : ValidOrders steamGraph (fun _ => ["Water", "Fire", "Steam", "Cloud"]) :=
    fun _ => (by decide : (["Water", "Fire", "Steam", "Cloud"] : List String).Perm
      steamGraph.keys)
  ⟨fresh_of_entries steamGraph (by decide), h₁, h₂, by decide, by decide,
    order_independence (fun _ => ["Cloud", "Steam", "Fire", "Water"])
      (fun _ => ["Water", "Fire", "Steam", "Cloud"]) steamGraph
      (fresh_of_entries steamGraph (by decide)) h₁ h₂ (by decide) (by decide)⟩

/-! ## Construction of the map -/

theorem addPlaceholder_keeps (m : Elements) (i k : String) (e : Element)
    (h : m.get? k = some e) : (addPlaceholder m i).get? k = some e := by
  unfold addPlaceholder
  cases hi : m.get? i with
  | some _ => exact h
  | none =>
    have hne : i ≠ k := by
      intro heq
      rw [heq, h] at hi
      exact absurd hi (by simp)
    simp only []
    rw [get?_set_ne m _ hne]
    exact h

theorem addPlaceholder_self (m : Elements) (i : String) :
    ∃ e, (addPlaceholder m i).get? i = some e := by
  unfold addPlaceholder
  cases hi : m.get? i with
  | some e => exact ⟨e, hi⟩
  | none => exact ⟨_, get?_set_self _ _ _⟩

theorem addPlaceholder_new (m : Elements) (i : String) (h : m.get? i = none) :
    (addPlaceholder m i).get? i = some (placeholder i) := by
  unfold addPlaceholder
  simp only [h]
  exact get?_set_self _ _ _

theorem addPlaceholder_other (m : Elements) (i k : String) (hne : i ≠ k) :
    (addPlaceholder m i).get? k = m.get? k := by
  unfold addPlaceholder
  cases hi : m.get? i with
  | some _ => rfl
  | none => exact get?_set_ne m _ hne

/-- A record found after an ingredient got its placeholder was there before, or
is a placeholder. -/
theorem addPlaceholder_origin (m : Elements) (i k : String) (e : Element)
    (h : (addPlaceholder m i).get? k = some e) :
    m.get? k = some e ∨ e = placeholder k := by
  by_cases hne : i = k
  · subst hne
    cases hi : m.get? i with
    | some e' =>
      left
      rw [← h]
      unfold addPlaceholder
      simp only [hi]
    | none =>
      right
      rw [addPlaceholder_new m i hi] at h
      exact (Option.some.inj h).symm
  · rw [addPlaceholder_other m i k hne] at h
    exact Or.inl h

theorem foldl_addPlaceholder_keeps (ings : List String) (m : Elements) (k : String)
    (e : Element) (h : m.get? k = some e) :
    (ings.foldl addPlaceholder m).get? k = some e := by
  induction ings generalizing m with
  | nil => exact h
  | cons i rest ih => exact ih _ (addPlaceholder_keeps m i k e h)

theorem foldl_addPlaceholder_mem (ings : List String) (m : Elements) (i : String)
    (hi : i ∈ ings) : ∃ e, (ings.foldl addPlaceholder m).get? i = some e := by
  induction ings generalizing m with
  | nil => simp at hi
  | cons j rest ih =>
    rcases List.mem_cons.mp hi with rfl | hi
    · obtain ⟨e, he⟩ := addPlaceholder_self m i
      exact ⟨e, foldl_addPlaceholder_keeps rest _ i e he⟩
    · exact ih _ hi

theorem foldl_addPlaceholder_new (ings : List String) (m : Elements) (i : String)
    (hi : i ∈ ings) (h : m.get? i = none) :
    (ings.foldl addPlaceholder m).get? i = some (placeholder i) := by
  induction ings generalizing m with
  | nil => simp at hi
  | cons j rest ih =>
    rw [List.foldl_cons]
    by_cases hji : j = i
    · subst hji
      exact foldl_addPlaceholder_keeps rest _ j _ (addPlaceholder_new m j h)
    · have hi' : i ∈ rest := by
        rcases List.mem_cons.mp hi with rfl | hi
        · exact absurd rfl hji
        · exact hi
      apply ih _ hi'
      rw [addPlaceholder_other m j i hji]
      exact h

theorem foldl_addPlaceholder_origin (ings : List String) (m : Elements) (k : String)
    (e : Element) (h : (ings.foldl addPlaceholder m).get? k = some e) :
    m.get? k = some e ∨ e = placeholder k := by
  induction ings generalizing m with
  | nil => exact Or.inl h
  | cons i rest ih =>
    rcases ih _ h with h' | h'
    · exact addPlaceholder_origin m i k e h'
    · exact Or.inr h'

theorem mem_keys_of_get? (m : Elements) (k : String) (e : Element) (h : m.get? k = some e) :
    k ∈ m.keys :=
  (get?_isSome_iff m k).mp ⟨e, h⟩

/-- Appending a recipe and inserting the placeholders keeps the map
well-formed. -/
theorem addRecipe_wellFormed (name : String) (m : Elements) (ings : List String)
    (hwf : WellFormed m) : WellFormed (addRecipe name m ings) := by
  unfold addRecipe
  by_cases hlen : ings.length ≥ 2
  · simp only [hlen, if_true]
    cases hg : m.get? name with
    | none => exact hwf
    | some elem =>
      simp only []
      intro n e hge r hr
      rcases foldl_addPlaceholder_origin ings _ n e hge with h₁ | h₁
      · have hkeep : ∀ i, i ∈ m.keys →
            i ∈ (ings.foldl addPlaceholder
              (m.set name { elem with Recipes := elem.Recipes ++ [⟨ings⟩] })).keys := by
          intro i hi
          obtain ⟨ei, hei⟩ := (get?_isSome_iff m i).mpr hi
          by_cases hni : name = i
          · subst hni
            exact mem_keys_of_get? _ _ _
              (foldl_addPlaceholder_keeps ings _ name _ (get?_set_self m name _))
          · exact mem_keys_of_get? _ _ _
              (foldl_addPlaceholder_keeps ings _ i ei (by rw [get?_set_ne m _ hni]; exact hei))
        by_cases hnn : name = n
        · subst hnn
          rw [get?_set_self] at h₁
          cases h₁
          rcases List.mem_append.mp hr with hr | hr
          · obtain ⟨hl, hk⟩ := hwf name elem hg r hr
            exact ⟨hl, fun i hi => hkeep i (hk i hi)⟩
          · have hrr : r = ⟨ings⟩ := by simpa using hr
            subst hrr
            refine ⟨hlen, fun i hi => ?_⟩
            obtain ⟨ei, hei⟩ := foldl_addPlaceholder_mem ings
              (m.set name { elem with Recipes := elem.Recipes ++ [⟨ings⟩] }) i hi
            exact mem_keys_of_get? _ _ _ hei
        · rw [get?_set_ne m _ hnn] at h₁
          obtain ⟨hl, hk⟩ := hwf n e h₁ r hr
          exact ⟨hl, fun i hi => hkeep i (hk i hi)⟩
      · rw [h₁] at hr
        simp [placeholder] at hr
  · simp only [hlen, if_false]
    exact hwf

/-- Creating the record of the row's result, or completing its image fields,
keeps the map well-formed. -/
theorem ensureElement_wellFormed (m : Elements) (row : Row) (hwf : WellFormed m) :
    WellFormed (ensureElement m row) := by
  unfold ensureElement
  have hset : ∀ v : Element,
      (∀ r ∈ v.Recipes, ∃ e, m.get? row.resultName = some e ∧ r ∈ e.Recipes) →
      WellFormed (m.set row.resultName v) := by
    intro v hv n e hge r hr
    have hkeep : ∀ i, i ∈ m.keys → i ∈ (m.set row.resultName v).keys := by
      intro i hi
      obtain ⟨ei, hei⟩ := (get?_isSome_iff m i).mpr hi
      by_cases hni : row.resultName = i
      · subst hni
        exact mem_keys_of_get? _ _ _ (get?_set_self m _ v)
      · exact mem_keys_of_get? _ _ ei (by rw [get?_set_ne m _ hni]; exact hei)
    by_cases hnn : row.resultName = n
    · subst hnn
      rw [get?_set_self] at hge
      cases hge
      obtain ⟨e₀, hg₀, hr₀⟩ := hv r hr
      obtain ⟨hl, hk⟩ := hwf _ e₀ hg₀ r hr₀
      exact ⟨hl, fun i hi => hkeep i (hk i hi)⟩
    · rw [get?_set_ne m _ hnn] at hge
      obtain ⟨hl, hk⟩ := hwf n e hge r hr
      exact ⟨hl, fun i hi => hkeep i (hk i hi)⟩
  cases hg : m.get? row.resultName with
  | none =>
    simp only []
    apply hset
    intro r hr
    simp at hr
  | some elem =>
    simp only []
    split
    · apply hset
      intro r hr
      exact ⟨elem, hg, hr⟩
    · exact hwf

theorem processRow_wellFormed (m : Elements) (row : Row) (hwf : WellFormed m) :
    WellFormed (processRow m row) := by
  unfold processRow
  split
  · exact hwf
  · split
    · exact hwf
    · have h := ensureElement_wellFormed m row hwf
      generalize ensureElement m row = m' at h
      induction row.recipes generalizing m' with
      | nil => exact h
      | cons ings rest ih => exact ih _ (addRecipe_wellFormed row.resultName m' ings h)

/-- Claim C9 (well-formedness is an invariant of the construction).  After any
sequence of table rows, starting from the empty map, every stored recipe has at
least two ingredients and each of its ingredients is a key.  An ingredient list
with fewer than two names leaves the map as it is (nothing stored, no
placeholder); a list with at least two names, added to an existing key, leaves
under each ingredient that was not a key before the placeholder record without
recipes. -/
theorem construction_invariant (rows : List Row) :
    WellFormed (buildElements rows) ∧
    (∀ (name : String) (elements : Elements) (ings : List String),
      ings.length < 2 → addRecipe name elements ings = elements) ∧
    (∀ (name : String) (elements : Elements) (ings : List String) (i : String),
      2 ≤ ings.length → (∃ e, elements.get? name = some e) → i ∈ ings →
      elements.get? i = none →
      (addRecipe name elements ings).get? i = some ⟨i, 1, "", "", [], false⟩) := by
  refine ⟨?_, ?_, ?_⟩
  · unfold buildElements
    have h : WellFormed [] := by
      intro n e hge
      simp [Elements.get?] at hge
    generalize ([] : Elements) = m at h
    induction rows generalizing m with
    | nil => exact h
    | cons row rest ih => exact ih _ (processRow_wellFormed m row h)
  · intro name elements ings hlen
    unfold addRecipe
    have : ¬ ings.length ≥ 2 := by omega
    simp only [this, if_false]
  · intro name elements ings i hlen hname hi hnone
    obtain ⟨e, hg⟩ := hname
    unfold addRecipe
    simp only [ge_iff_le, hlen, if_true, hg]
    apply foldl_addPlaceholder_new ings _ i hi
    have hne : name ≠ i := by
      intro heq
      rw [heq, hnone] at hg
      exact absurd hg (by simp)
    rw [get?_set_ne elements _ hne]
    exact hnone

/-! ## The map the tier calculation receives -/

theorem fresh_set (m : Elements) (k : String) (v : Element) (hf : Fresh m)
    (hv : v.visited = false) : Fresh (m.set k v) := by
  intro n e hge
  by_cases hkn : k = n
  · subst hkn
    rw [get?_set_self] at hge
    cases hge
    exact hv
  · rw [get?_set_ne m _ hkn] at hge
    exact hf n e hge

theorem addPlaceholder_fresh (m : Elements) (i : String) (hf : Fresh m) :
    Fresh (addPlaceholder m i) := by
  unfold addPlaceholder
  cases m.get? i with
  | some _ => exact hf
  | none => exact fresh_set m i _ hf rfl

theorem addRecipe_fresh (name : String) (m : Elements) (ings : List String) (hf : Fresh m) :
    Fresh (addRecipe name m ings) := by
  unfold addRecipe
  split
  · cases hg : m.get? name with
    | none => exact hf
    | some elem =>
      simp only []
      have h := fresh_set m name { elem with Recipes := elem.Recipes ++ [⟨ings⟩] } hf
        (hf name elem hg)
      generalize m.set name { elem with Recipes := elem.Recipes ++ [⟨ings⟩] } = m' at h
      generalize hl : ings = l
      clear hl
      induction l generalizing m' with
      | nil => exact h
      | cons i rest ih => exact ih _ (addPlaceholder_fresh m' i h)
  · exact hf

theorem processRow_fresh (m : Elements) (row : Row) (hf : Fresh m) :
    Fresh (processRow m row) := by
  unfold processRow
  split
  · exact hf
  · split
    · exact hf
    · have h : Fresh (ensureElement m row) := by
        unfold ensureElement
        cases hg : m.get? row.resultName with
        | none => exact fresh_set m _ _ hf rfl
        | some elem =>
          simp only []
          split
          · exact fresh_set m _ _ hf (hf _ elem hg)
          · exact hf
      generalize ensureElement m row = m' at h
      induction row.recipes generalizing m' with
      | nil => exact h
      | cons ings rest ih => exact ih _ (addRecipe_fresh row.resultName m' ings h)

/-- The map the scraper builds has no record marked visited: it is an input
of the kind the theorems on the tier calculation assume. -/
theorem buildElements_fresh (rows : List Row) : Fresh (buildElements rows) := by
  unfold buildElements
  have h : Fresh [] := by
    intro n e hge
    simp [Elements.get?] at hge
  generalize ([] : Elements) = m at h
  induction rows generalizing m with
  | nil => exact h
  | cons row rest ih => exact ih _ (processRow_fresh m row h)

/-- The scraper and the tier calculation on a one-row table: the ingredient list
with one name is dropped, `Water` and `Fire` get placeholders and tier 1, and
`Steam` gets tier 2. -/
theorem steam_example :
    buildElements steamRows =
      [("Steam", ⟨"Steam", 1, "https://example.org/steam.png", "images/Steam_0a1b2c3d.png",
          [⟨["Water", "Fire"]⟩], false⟩),
       ("Water", placeholder "Water"), ("Fire", placeholder "Fire")] ∧
    tierOf (resolveTiers (fun _ => ["Steam", "Fire", "Water"]) (buildElements steamRows))
      "Steam" = some 2 ∧
    tierOf (resolveTiers (fun _ => ["Steam", "Fire", "Water"]) (buildElements steamRows))
      "Water" = some 1 ∧
    (runLoop (fun _ => ["Steam", "Fire", "Water"]) (buildElements steamRows)).iteration = 2 := by
  decide

/-! ## The range of the tiers -/

theorem length_set_of_get? (m : Elements) (k : String) (e v : Element)
    (h : m.get? k = some e) : (m.set k v).length = m.length := by
  induction m with
  | nil => simp [Elements.get?] at h
  | cons p rest ih =>
    obtain ⟨a, b⟩ := p
    by_cases hk : a = k
    · simp [Elements.set, hk]
    · simp only [Elements.get?, hk, if_false] at h
      simp [Elements.set, hk, ih h]

/-- Marking one unvisited record visited raises the count by one. -/
theorem visitedCount_set (m : Elements) (k : String) (e v : Element)
    (h : m.get? k = some e) (he : e.visited = false) (hv : v.visited = true) :
    visitedCount (m.set k v) = visitedCount m + 1 := by
  induction m with
  | nil => simp [Elements.get?] at h
  | cons p rest ih =>
    obtain ⟨a, b⟩ := p
    by_cases hk : a = k
    · simp only [Elements.get?, hk, if_true, Option.some.injEq] at h
      subst h
      simp [Elements.set, hk, visitedCount, List.countP_cons, he, hv]
    · simp only [Elements.get?, hk, if_false] at h
      have := ih h
      simp only [visitedCount] at this
      simp only [Elements.set, hk, if_false, visitedCount, List.countP_cons, this]
      omega

theorem visitedCount_pos (m : Elements) (n : String) (e : Element)
    (h : m.get? n = some e) (hv : e.visited = true) : 1 ≤ visitedCount m := by
  unfold visitedCount
  exact List.countP_pos_iff.mpr ⟨(n, e), get?_mem m n e h, hv⟩

/-- The loop body keeps "the map has as many entries as the input, and no
visited tier exceeds the number of visited entries". -/
theorem tier_bound_step (g : Elements) (hf : Fresh g) (m : Elements) (c : Bool) (n' : String)
    (h : Evolves (initBase g) m ∧ m.length = g.length ∧
      ∀ n e, m.get? n = some e → e.visited = true → e.Tier ≤ visitedCount m) :
    Evolves (initBase g) (visitElement (m, c) n').1 ∧
      (visitElement (m, c) n').1.length = g.length ∧
      ∀ n e, (visitElement (m, c) n').1.get? n = some e → e.visited = true →
        e.Tier ≤ visitedCount (visitElement (m, c) n').1 := by
  obtain ⟨hev, hlen, hinv⟩ := h
  refine ⟨hev.trans (visitElement_evolves m c n'), ?_⟩
  rcases visitElement_cases m c n' with hc | ⟨elem, hget, hv, hcan, hc⟩
  · rw [hc]; exact ⟨hlen, hinv⟩
  · rw [hc]
    have hcount := visitedCount_set m n' elem
      { elem with Tier := (scanRecipes m elem.Recipes false 0).2 + 1, visited := true }
      hget hv rfl
    refine ⟨by rw [length_set_of_get? m n' elem _ hget]; exact hlen, ?_⟩
    intro n e hge hve
    rw [hcount]
    by_cases hne : n' = n
    · subst hne
      rw [get?_set_self] at hge
      cases hge
      obtain ⟨hpos, _, r, hr, hres, hrt⟩ := scanRecipes_true m elem.Recipes hcan
      have hnil : r.Ingredients ≠ [] := by
        intro hnil
        have : recipeTierOf m r = 0 := by simp [recipeTierOf, hnil, scanIngredients]
        omega
      obtain ⟨_, i, hi, hti⟩ := recipeTierOf_attained m r
        (reached_tier_pos g m hf hev) hres hnil
      obtain ⟨ei, hgi, hvi⟩ := hres i hi
      have hb := hinv i ei hgi hvi
      have hti' : ei.Tier = (scanRecipes m elem.Recipes false 0).2 := by
        rw [← hrt, ← hti]
        simp [tierAt, hgi]
      show (scanRecipes m elem.Recipes false 0).2 + 1 ≤ _
      push_cast
      omega
    · rw [get?_set_ne m _ hne] at hge
      have := hinv n e hge hve
      push_cast
      omega

/-- The tiers the loop assigns on a fresh map lie between 1 and the number of
entries of the map, so that `maxTier + 1` stays far inside the range of a Go
`int` (a map cannot hold `2 ^ 63` entries). -/
theorem tier_le_length (orders : Nat → List String) (g : Elements) (hf : Fresh g)
    (k it : Nat) (n : String) (e : Element)
    (hget : (tierLoop orders k it (initBase g)).elements.get? n = some e)
    (hv : e.visited = true) : 1 ≤ e.Tier ∧ e.Tier ≤ g.length := by
  have hinit : ∀ n e, (initBase g).get? n = some e → e.visited = true →
      e.Tier ≤ visitedCount (initBase g) := by
    intro n e hge hve
    have hpos := visitedCount_pos (initBase g) n e hge hve
    rcases initBase_fresh g hf n e hge with ⟨_, _, h3⟩ | ⟨_, h2, _⟩
    · rw [h3]
      exact_mod_cast hpos
    · rw [hve] at h2; exact absurd h2 (by simp)
  have hlen₀ : (initBase g).length = g.length := by
    unfold initBase
    exact List.length_map _ _
  obtain ⟨hev, hlen, hinv⟩ := tierLoop_preserves
    (fun m => Evolves (initBase g) m ∧ m.length = g.length ∧
      ∀ n e, m.get? n = some e → e.visited = true → e.Tier ≤ visitedCount m)
    (fun m c n h => tier_bound_step g hf m c n h) orders k it (initBase g)
    ⟨Evolves.refl _, hlen₀, hinit⟩
  refine ⟨reached_tier_pos g _ hf hev n e hget hv, ?_⟩
  have h1 := hinv n e hget hv
  have h2 : visitedCount (tierLoop orders k it (initBase g)).elements ≤
      (tierLoop orders k it (initBase g)).elements.length := by
    unfold visitedCount
    exact List.countP_le_length _
  have h3 : ((visitedCount (tierLoop orders k it (initBase g)).elements : Nat) : Int) ≤
      ((g.length : Nat) : Int) := by
    rw [← hlen]
    exact_mod_cast h2
  omega

/-- The bound `visitElement_step` assumes holds in every state the loop reaches
from a fresh map with fewer than `maxInt64` entries. -/
theorem reached_tier_lt_maxInt64 (orders : Nat → List String) (g : Elements) (hf : Fresh g)
    (hsize : (g.length : Int) < maxInt64)
    (k it : Nat) (n : String) (e : Element)
    (hget : (tierLoop orders k it (initBase g)).elements.get? n = some e)
    (hv : e.visited = true) : 1 ≤ e.Tier ∧ e.Tier < maxInt64 := by
  obtain ⟨h1, h2⟩ := tier_le_length orders g hf k it n e hget hv
  exact ⟨h1, lt_of_le_of_lt h2 hsize⟩

end WebScrapping
